import Mathlib

/-!
# sqspipe: the relay engine of `main.go`

A shallow embedding of `src/main.go` (package `main` of Wattpad/sqspipe).

* The SQS client is not part of the repository.  Every call the program makes
  on it is recorded in `World.calls`, and the answer of the remote service is
  an argument of the function that makes the call, so every theorem holds for
  every answer the service can give.
* `*string` fields of SDK values that the program dereferences (`MessageId`,
  `Body`, the `Id` of a result entry) are `String`s.
* `int64` and `int` values are `Int`s.  The counters start from a count parsed
  by `strconv.ParseInt` (whose range check is modelled) and move by the number
  of ids of one `SendMessageBatch` answer per round, so wrap-around is out of
  reach and is not modelled.
* Goroutines are interleaved at these steps: one evaluation of the loop
  condition of `runLoop`; one loop body up to and including the first atomic
  addition of `DecrRemaining` (the one on `p.remaining`); the second atomic
  addition of `DecrRemaining` (`progressAdd`); one firing of the idle timer;
  one wake-up of a listener goroutine.  The two counters are written by these
  two atomic additions only, so every value they take while goroutines
  interleave is the value in some state of a run.
* `log.Println` lines (which carry a time stamp) and the floating point rate
  of the progress logger are not modelled; `fmt.Print*` lines are kept in
  `World.out`.
-/

namespace Sqspipe

/-! ## Outcomes -/

/-- Outcome of running a piece of the program: it returns (`ok`), it waits for
ever on a channel receive in the given state (`blocked`), it dereferences
`nil` (`panicked`), or it ends the process through `os.Exit` (`exited`). -/
inductive Result (α : Type) where
  | ok (a : α)
  | blocked (a : α)
  | panicked
  | exited (code : Nat)
deriving DecidableEq, Repr

/-! ## SDK values -/

/-- The type `sqs.Message`, with the three fields the program reads. -/
structure Message where
  MessageId : String
  Body : String
  ReceiptHandle : String
deriving DecidableEq, Repr

/-- The type `sqs.SendMessageBatchRequestEntry`. -/
structure SendMessageBatchRequestEntry where
  Id : String
  MessageBody : String
deriving DecidableEq, Repr

/-- The type `sqs.SendMessageBatchInput`. -/
structure SendMessageBatchInput where
  QueueUrl : String
  Entries : List SendMessageBatchRequestEntry
deriving DecidableEq, Repr

/-- The type `sqs.SendMessageBatchResultEntry`: `Id` is the id of the request
entry that succeeded. -/
structure SendMessageBatchResultEntry where
  Id : String
  MessageId : String
deriving DecidableEq, Repr

/-- The type `sqs.BatchResultErrorEntry`: `Id` is the id of the request entry
that failed. -/
structure BatchResultErrorEntry where
  Id : String
  Code : String
deriving DecidableEq, Repr

/-- The type `sqs.SendMessageBatchOutput`. -/
structure SendMessageBatchOutput where
  Successful : List SendMessageBatchResultEntry
  Failed : List BatchResultErrorEntry
deriving DecidableEq, Repr

/-- The type `sqs.DeleteMessageBatchRequestEntry`. -/
structure DeleteMessageBatchRequestEntry where
  ReceiptHandle : String
  Id : String
deriving DecidableEq, Repr

/-- The type `sqs.DeleteMessageBatchInput`. -/
structure DeleteMessageBatchInput where
  QueueUrl : String
  Entries : List DeleteMessageBatchRequestEntry
deriving DecidableEq, Repr

/-- The type `sqs.ReceiveMessageInput`. -/
structure ReceiveMessageInput where
  MaxNumberOfMessages : Int
  WaitTimeSeconds : Int
  QueueUrl : String
deriving DecidableEq, Repr

/-- The type `sqs.GetQueueAttributesInput`. -/
structure GetQueueAttributesInput where
  QueueUrl : String
  AttributeNames : List String
deriving DecidableEq, Repr

/-- The type `sqs.GetQueueAttributesOutput`: `Attributes` is a
`map[string]*string`, a list of pairs read with `List.lookup`; `none` is a
`nil` pointer. -/
structure GetQueueAttributesOutput where
  Attributes : List (String × Option String)
deriving DecidableEq, Repr

/-- One call on the SQS client, with its request. -/
inductive Call where
  | GetQueueAttributes (input : GetQueueAttributesInput)
  | ReceiveMessage (input : ReceiveMessageInput)
  | SendMessageBatch (input : SendMessageBatchInput)
  | DeleteMessageBatch (input : DeleteMessageBatchInput)
deriving DecidableEq, Repr

/-- The variable `maxMessages`. -/
def maxMessages : Int := 10

/-- The variable `waitTime`. -/
def waitTime : Int := 20

/-- The constant `sqs.QueueAttributeNameApproximateNumberOfMessages`. -/
def QueueAttributeNameApproximateNumberOfMessages : String :=
  "ApproximateNumberOfMessages"

/-! ## `map[string]bool` -/

/-- A Go `map[string]bool`: the pairs in insertion order, each key once.  The
`nil` map and the empty map both have no pairs; reading and `len` do not tell
them apart. -/
structure MapStringBool where
  pairs : List (String × Bool)
deriving DecidableEq, Repr

/-- The expression `make(map[string]bool)`, and the `nil` map. -/
def MapStringBool.make : MapStringBool := ⟨[]⟩

/-- Pairs of `m[k] = v`: the value of an existing key is replaced. -/
def MapStringBool.setPairs (k : String) (v : Bool) :
    List (String × Bool) → List (String × Bool)
  | [] => [(k, v)]
  | (k1, v1) :: rest =>
    if k1 = k then (k, v) :: rest else (k1, v1) :: MapStringBool.setPairs k v rest

/-- The statement `m[k] = v`. -/
def MapStringBool.set (m : MapStringBool) (k : String) (v : Bool) : MapStringBool :=
  ⟨MapStringBool.setPairs k v m.pairs⟩

/-- The expression `m[k]`: the zero value `false` for an absent key. -/
def MapStringBool.get (m : MapStringBool) (k : String) : Bool :=
  match m.pairs.lookup k with
  | some v => v
  | none => false

/-- The expression `len(m)`. -/
def MapStringBool.len (m : MapStringBool) : Nat := m.pairs.length

/-! ## `time.Timer` and `context.Context` -/

/-- A `time.Timer`.  `armed = some d` when the timer is running, set to fire
after `d` nanoseconds; `C` tells whether the one-slot channel `C` holds an
expiry notification that nobody has received yet. -/
structure Timer where
  armed : Option Nat
  C : Bool
deriving DecidableEq, Repr

/-- The function `time.NewTimer`. -/
def Timer.NewTimer (d : Nat) : Timer := { armed := some d, C := false }

/-- The method `Stop`: it reports whether the call stopped a running timer. -/
def Timer.Stop (t : Timer) : Bool × Timer := (t.armed.isSome, { t with armed := none })

/-- The method `Reset` (its result is not used by the program). -/
def Timer.Reset (t : Timer) (d : Nat) : Timer := { t with armed := some d }

/-- The running timer expires: the runtime puts a notification in `C` without
blocking. -/
def Timer.fire (t : Timer) : Option Timer :=
  match t.armed with
  | some _ => some { armed := none, C := true }
  | none => none

/-- The receive `<-t.C`: `none` when the channel is empty and the receiver has
to wait. -/
def Timer.recv (t : Timer) : Option Timer :=
  if t.C then some { t with C := false } else none

/-- The cancellable context made by `context.WithCancel`: `done` is set by
`cancel()`, and setting it again changes nothing. -/
structure Context where
  done : Bool
deriving DecidableEq, Repr

/-! ## The pipe and the process -/

/-- The type `pipe`.  Durations are in nanoseconds; `wg` is the counter of the
`sync.WaitGroup`; `none` is a `nil` timer or context. -/
structure pipe where
  SourceURL : String
  DestinationURL : String
  MaxIdle : Nat
  remaining : Int
  idleTimer : Option Timer
  ctx : Option Context
  wg : Int
deriving DecidableEq, Repr

/-- Where a goroutine running `runLoop` stands: about to evaluate the loop
condition, about to run the loop body, inside `DecrRemaining(v)` between its
two atomic additions (`p.remaining` is lowered, `progress` is not yet raised),
waiting for ever inside `ResetTimer`, or returned. -/
inductive Worker where
  | top
  | body
  | accounting (v : Nat)
  | stuck
  | exited
deriving DecidableEq, Repr

/-- The state of the process: the pipe, the package variable `progress`, the
lines printed on standard output, the calls made on the SQS client, and the
goroutines (the workers, the listener of the interrupt channel, the listener
of the idle timer, the progress logger). -/
structure World where
  p : pipe
  progress : Int
  out : List String
  calls : List Call
  workers : List Worker
  termListener : Bool
  timerListener : Bool
  progressLogger : Bool
deriving DecidableEq, Repr

/-- A fresh process holding the pipe that `main` builds. -/
def World.init (sourceURL destinationURL : String) (maxIdle : Nat) : World :=
  { p := { SourceURL := sourceURL, DestinationURL := destinationURL, MaxIdle := maxIdle,
           remaining := 0, idleTimer := none, ctx := none, wg := 0 },
    progress := 0, out := [], calls := [], workers := [],
    termListener := false, timerListener := false, progressLogger := false }

/-- The method `NumRemaning`. -/
def NumRemaning (w : World) : Int := w.p.remaining

/-- The method `IsDone`. -/
def IsDone (w : World) : Result (Bool × World) :=
  if w.p.remaining ≤ 0 then
    .ok (true, { w with out := w.out ++ ["Stopping with 0 remaining"] })
  else
    match w.p.ctx with
    | none => .panicked
    | some c =>
      if c.done then
        .ok (true, { w with out := w.out ++
          ["Stopping with " ++ toString (NumRemaning w) ++ " remaining"] })
      else .ok (false, w)

/-- The function `progressAdd`. -/
def progressAdd (w : World) (n : Int) : World := { w with progress := w.progress + n }

/-- The first statement of `DecrRemaining`: the atomic addition of
`-1*int64(v)` to `p.remaining`. -/
def addRemaining (w : World) (v : Int) : World :=
  { w with p := { w.p with remaining := w.p.remaining + -1 * v } }

/-- The method `DecrRemaining`. -/
def DecrRemaining (w : World) (v : Int) : World :=
  progressAdd { w with p := { w.p with remaining := w.p.remaining + -1 * v } } v

/-- The method `ResetTimer`. -/
def ResetTimer (w : World) : Result World :=
  match w.p.idleTimer with
  | none => .panicked
  | some t =>
    let (stopped, t1) := t.Stop
    if !stopped then
      match t1.recv with
      | none => .blocked { w with p := { w.p with idleTimer := some t1 } }
      | some t2 => .ok { w with p := { w.p with idleTimer := some (t2.Reset w.p.MaxIdle) } }
    else .ok { w with p := { w.p with idleTimer := some (t1.Reset w.p.MaxIdle) } }

/-! ## `strconv.ParseInt` and the size of the source queue -/

/-- Value of a string of decimal digits, as `strconv.ParseUint` reads it in
base 10: `none` for the empty string and for any other character. -/
def parseDigits (cs : List Char) : Option Nat :=
  if cs = [] then none
  else cs.foldl (fun acc c =>
    match acc with
    | none => none
    | some n => if '0' ≤ c ∧ c ≤ '9' then some (n * 10 + (c.toNat - 48)) else none) (some 0)

/-- The call `strconv.ParseInt(s, 10, 64)`: `none` when it returns an error (a
malformed string, or a value outside the range of `int64`). -/
def ParseInt (s : String) : Option Int :=
  match s.toList with
  | [] => none
  | '+' :: cs =>
    match parseDigits cs with
    | some n => if n < 2 ^ 63 then some (n : Int) else none
    | none => none
  | '-' :: cs =>
    match parseDigits cs with
    | some n => if n ≤ 2 ^ 63 then some (-(n : Int)) else none
    | none => none
  | cs =>
    match parseDigits cs with
    | some n => if n < 2 ^ 63 then some (n : Int) else none
    | none => none

/-- The method `countRemainingMessages`; `qao` is the answer of
`GetQueueAttributes`. -/
def countRemainingMessages (w : World) (qao : Except String GetQueueAttributesOutput) :
    Result (Int × World) :=
  let w1 : World := { w with calls := w.calls ++ [Call.GetQueueAttributes
    { QueueUrl := w.p.SourceURL,
      AttributeNames := [QueueAttributeNameApproximateNumberOfMessages] }] }
  match qao with
  | .error _ => .exited 1
  | .ok qao =>
    match qao.Attributes.lookup QueueAttributeNameApproximateNumberOfMessages with
    | some (some v) =>
      match ParseInt v with
      | some vi => .ok (vi, w1)
      | none => .ok (0, w1)
    | _ => .ok (0, w1)

/-- The method `Start`; `qao` is the answer of `GetQueueAttributes`. -/
def Start (w : World) (n : Int) (qao : Except String GetQueueAttributesOutput) :
    Result World :=
  match countRemainingMessages w qao with
  | .ok (v, w1) =>
    let w2 : World := { w1 with p := { w1.p with remaining := v } }
    if w2.p.remaining ≤ 0 then
      .ok { w2 with out := w2.out ++ ["Queue is empty or unable to read size"] }
    else
      let w3 : World :=
        { w2 with
          p := { w2.p with ctx := some (Context.mk false) }
          termListener := true }
      let w4 : World :=
        { w3 with
          p := { w3.p with idleTimer := some (Timer.NewTimer w3.p.MaxIdle) }
          timerListener := true }
      if w4.p.wg + n < 0 then .panicked
      else
        let w5 : World :=
          { w4 with
            p := { w4.p with wg := w4.p.wg + n }
            workers := w4.workers ++ List.replicate n.toNat Worker.top }
        .ok { w5 with progressLogger := true }
  | .blocked (_, w1) => .blocked w1
  | .panicked => .panicked
  | .exited c => .exited c

/-- The method `Wait`: it returns once the counter of the wait group is 0. -/
def Wait (w : World) : Result World :=
  if w.p.wg = 0 then .ok w else .blocked w

/-! ## The worker -/

/-- The type `sqs.ReceiveMessageOutput`. -/
structure ReceiveMessageOutput where
  Messages : List Message
deriving DecidableEq, Repr

/-- The request that `sendMessageBatch` builds: one appended entry per
message. -/
def sendMessageBatchInput (w : World) (messages : List Message) : SendMessageBatchInput :=
  messages.foldl
    (fun bi m =>
      { bi with Entries := bi.Entries ++ [{ Id := m.MessageId, MessageBody := m.Body }] })
    { QueueUrl := w.p.DestinationURL, Entries := [] }

/-- The method `sendMessageBatch`; `resp` is the answer of `SendMessageBatch`
to the request built from `messages`. -/
def sendMessageBatch (w : World) (messages : List Message)
    (resp : Except String SendMessageBatchOutput) : MapStringBool × World :=
  let bi := sendMessageBatchInput w messages
  let w1 : World := { w with calls := w.calls ++ [Call.SendMessageBatch bi] }
  match resp with
  | .error _ => (MapStringBool.make, w1)
  | .ok resp =>
    let oks := MapStringBool.make
    let oks :=
      if resp.Successful.length > 0 then
        resp.Successful.foldl (fun oks e => oks.set e.Id true) oks
      else oks
    (oks, w1)

/-- The loop of `runLoop` over the received messages that builds the entries
of the delete request. -/
def deleteEntries (messages : List Message) (successes : MapStringBool) :
    List DeleteMessageBatchRequestEntry :=
  messages.foldl
    (fun entries m =>
      if !successes.get m.MessageId then entries
      else entries ++ [{ ReceiptHandle := m.ReceiptHandle, Id := m.MessageId }])
    []

/-- One run of the body of the `for` loop of `runLoop`; `rmo`, `smo` and `dmo`
are the answers of `ReceiveMessage`, `SendMessageBatch` and
`DeleteMessageBatch` (the last two are read only when the call is made). -/
def runLoopBody (w : World) (rmo : Except String ReceiveMessageOutput)
    (smo : Except String SendMessageBatchOutput) (dmo : Except String Unit) :
    Result World :=
  let w1 : World := { w with calls := w.calls ++ [Call.ReceiveMessage
    { MaxNumberOfMessages := maxMessages, WaitTimeSeconds := waitTime,
      QueueUrl := w.p.SourceURL }] }
  match rmo with
  | .error err =>
    .ok { w1 with out := w1.out ++ ["Error receiving messages with " ++
      toString (NumRemaning w1) ++ " remaining: " ++ err] }
  | .ok rmo =>
    if rmo.Messages.length = 0 then .ok w1
    else
      match ResetTimer w1 with
      | .ok w2 =>
        let (successes, w3) := sendMessageBatch w2 rmo.Messages smo
        let entries := deleteEntries rmo.Messages successes
        if entries.length = 0 then .ok w3
        else
          let w4 : World := { w3 with calls := w3.calls ++ [Call.DeleteMessageBatch
            { QueueUrl := w3.p.SourceURL, Entries := entries }] }
          match dmo with
          | .error err =>
            .ok { w4 with out := w4.out ++ ["Error deleting messages with " ++
              toString (NumRemaning w4) ++ " remaining: " ++ err] }
          | .ok _ => .ok (DecrRemaining w4 (successes.len : Int))
      | .blocked w2 => .blocked w2
      | .panicked => .panicked
      | .exited c => .exited c

/-- The body of the `for` loop of `runLoop` up to its last statement: the
state in which the body ends by `continue` (with `none`), or the state in
which it calls `p.DecrRemaining(len(successes))`, with `len(successes)`. -/
def runLoopCalls (w : World) (rmo : Except String ReceiveMessageOutput)
    (smo : Except String SendMessageBatchOutput) (dmo : Except String Unit) :
    Result (World × Option Nat) :=
  let w1 : World := { w with calls := w.calls ++ [Call.ReceiveMessage
    { MaxNumberOfMessages := maxMessages, WaitTimeSeconds := waitTime,
      QueueUrl := w.p.SourceURL }] }
  match rmo with
  | .error err =>
    .ok ({ w1 with out := w1.out ++ ["Error receiving messages with " ++
      toString (NumRemaning w1) ++ " remaining: " ++ err] }, none)
  | .ok rmo =>
    if rmo.Messages.length = 0 then .ok (w1, none)
    else
      match ResetTimer w1 with
      | .ok w2 =>
        let (successes, w3) := sendMessageBatch w2 rmo.Messages smo
        let entries := deleteEntries rmo.Messages successes
        if entries.length = 0 then .ok (w3, none)
        else
          let w4 : World := { w3 with calls := w3.calls ++ [Call.DeleteMessageBatch
            { QueueUrl := w3.p.SourceURL, Entries := entries }] }
          match dmo with
          | .error err =>
            .ok ({ w4 with out := w4.out ++ ["Error deleting messages with " ++
              toString (NumRemaning w4) ++ " remaining: " ++ err] }, none)
          | .ok _ => .ok (w4, some successes.len)
      | .blocked w2 => .blocked (w2, none)
      | .panicked => .panicked
      | .exited c => .exited c

/-! ## Runs of the process -/

/-- The function `cancel` of the context. -/
def cancel (w : World) : World :=
  { w with p := { w.p with ctx := w.p.ctx.map (fun _ => Context.mk true) } }

/-- One step of one goroutine, or of the runtime timer. -/
inductive Event where
  | interrupt
  | expire
  | timeout
  | check (i : Nat)
  | round (i : Nat) (rmo : Except String ReceiveMessageOutput)
      (smo : Except String SendMessageBatchOutput) (dmo : Except String Unit)
  | account (i : Nat)

/-- The effect of one event; `none` when the event cannot happen in `w`.

* `interrupt`: the goroutine waiting on `term` receives a signal and cancels;
* `expire`: the running idle timer fires;
* `timeout`: the goroutine waiting on `p.idleTimer.C` receives the
  notification and cancels;
* `check i`: worker `i` evaluates `!p.IsDone()`, and returns (running the
  deferred `p.wg.Done()`) when the pipe is done;
* `round i`: worker `i` runs the loop body once, up to and including the
  atomic addition to `p.remaining` when the body calls `DecrRemaining`;
* `account i`: worker `i`, inside `DecrRemaining(v)`, runs `progressAdd(v)`
  and goes back to the loop condition. -/
def step (w : World) : Event → Option World
  | .interrupt =>
    if w.termListener then some { cancel w with termListener := false } else none
  | .expire =>
    match w.p.idleTimer with
    | some t =>
      match t.fire with
      | some t1 => some { w with p := { w.p with idleTimer := some t1 } }
      | none => none
    | none => none
  | .timeout =>
    if w.timerListener then
      match w.p.idleTimer with
      | some t =>
        match t.recv with
        | some t1 =>
          some { cancel { w with p := { w.p with idleTimer := some t1 } } with
            timerListener := false }
        | none => none
      | none => none
    else none
  | .check i =>
    match w.workers[i]? with
    | some Worker.top =>
      match IsDone w with
      | .ok (true, w1) =>
        some { w1 with
          p := { w1.p with wg := w1.p.wg - 1 }
          workers := w1.workers.set i Worker.exited }
      | .ok (false, w1) => some { w1 with workers := w1.workers.set i Worker.body }
      | _ => none
    | _ => none
  | .round i rmo smo dmo =>
    match w.workers[i]? with
    | some Worker.body =>
      match runLoopCalls w rmo smo dmo with
      | .ok (w1, none) => some { w1 with workers := w1.workers.set i Worker.top }
      | .ok (w1, some v) =>
        some { addRemaining w1 (v : Int) with
          workers := w1.workers.set i (Worker.accounting v) }
      | .blocked (w1, _) => some { w1 with workers := w1.workers.set i Worker.stuck }
      | _ => none
    | _ => none
  | .account i =>
    match w.workers[i]? with
    | some (Worker.accounting v) =>
      some { progressAdd w (v : Int) with workers := w.workers.set i Worker.top }
    | _ => none

/-- The effect of a sequence of events. -/
def run (w : World) : List Event → Option World
  | [] => some w
  | e :: es =>
    match step w e with
    | some w1 => run w1 es
    | none => none

/-- The process after `p.Start(n)` on a fresh pipe, followed by the events
`es`. -/
def runFromStart (sourceURL destinationURL : String) (maxIdle : Nat) (n : Int)
    (qao : Except String GetQueueAttributesOutput) (es : List Event) : Option World :=
  match Start (World.init sourceURL destinationURL maxIdle) n qao with
  | .ok w => run w es
  | _ => none

/-! ## Vocabulary of the properties -/

/-- Keys of a map, in insertion order. -/
def MapStringBool.keys (m : MapStringBool) : List String := m.pairs.map Prod.fst

/-- The ids that the answer of `SendMessageBatch` reports as successful: none
when the call itself fails. -/
def successIds : Except String SendMessageBatchOutput → List String
  | .error _ => []
  | .ok resp => resp.Successful.map (fun e => e.Id)

/-- The delete entries of the received messages whose id is reported as
successful, in received order, each with the id and the receipt handle of its
message. -/
def confirmedEntries (msgs : List Message) (smo : Except String SendMessageBatchOutput) :
    List DeleteMessageBatchRequestEntry :=
  (msgs.filter (fun m => decide (m.MessageId ∈ successIds smo))).map
    (fun m => { ReceiptHandle := m.ReceiptHandle, Id := m.MessageId })

/-- The idle timer exists and is either running or holds an expiry
notification that nobody has received. -/
def canReset (w : World) : Bool :=
  match w.p.idleTimer with
  | some t => t.armed.isSome || t.C
  | none => false

/-- The shutdown signal has fired: the context exists and is cancelled. -/
def fired (w : World) : Bool :=
  match w.p.ctx with
  | some c => c.done
  | none => false

/-- The `ReceiveMessage` call of the loop body. -/
def receiveCall (w : World) : Call :=
  Call.ReceiveMessage
    { MaxNumberOfMessages := maxMessages, WaitTimeSeconds := waitTime,
      QueueUrl := w.p.SourceURL }

/-- The delete requests among a list of calls. -/
def deleteRequests : List Call → List DeleteMessageBatchInput
  | [] => []
  | Call.DeleteMessageBatch r :: cs => r :: deleteRequests cs
  | _ :: cs => deleteRequests cs

/-- The calls made between the states `w` and `w1`. -/
def newCalls (w w1 : World) : List Call := w1.calls.drop w.calls.length

/-- The event is the external interrupt. -/
def Event.isInterrupt : Event → Bool
  | .interrupt => true
  | _ => false

/-- The event is the idle time-out cancelling the context. -/
def Event.isTimeout : Event → Bool
  | .timeout => true
  | _ => false

/-- No worker has left its loop yet unless the estimate is used up. -/
def Quiet (w : World) : Prop :=
  w.p.remaining ≤ 0 ∨
    (fired w = false ∧ w.workers ≠ [] ∧ ∀ x ∈ w.workers, x ≠ Worker.exited)

/-- Number of workers that have not returned from `runLoop`. -/
def liveWorkers (ws : List Worker) : Nat :=
  (ws.filter (fun x => decide (x ≠ Worker.exited))).length

/-! ## Sample inputs -/

/-- A received message with id `i`. -/
def sampleMessage (i : String) : Message :=
  { MessageId := i, Body := "body of " ++ i, ReceiptHandle := "receipt of " ++ i }

/-- A batch of ten messages with distinct ids. -/
def sampleBatch : ReceiveMessageOutput :=
  { Messages := ["m0", "m1", "m2", "m3", "m4", "m5", "m6", "m7", "m8", "m9"].map sampleMessage }

/-- An answer of `SendMessageBatch` to `sampleBatch`: seven entries succeed,
three fail. -/
def sampleSendOutput : SendMessageBatchOutput :=
  { Successful := ["m0", "m2", "m3", "m5", "m6", "m8", "m9"].map
      (fun i => { Id := i, MessageId := "sent " ++ i }),
    Failed := ["m1", "m4", "m7"].map (fun i => { Id := i, Code := "InternalError" }) }

/-- An answer of `GetQueueAttributes`: 25 messages in the source queue. -/
def sampleAttributes : Except String GetQueueAttributesOutput :=
  .ok { Attributes := [(QueueAttributeNameApproximateNumberOfMessages, some "25")] }

/-- The process after `Start(2)` on a source of 25 messages, once the first
worker has found the pipe not done. -/
def sampleWorld : World :=
  { p := { SourceURL := "src", DestinationURL := "dst", MaxIdle := 60000000000,
           remaining := 25, idleTimer := some { armed := some 60000000000, C := false },
           ctx := some (Context.mk false), wg := 2 },
    progress := 0, out := [],
    calls := [Call.GetQueueAttributes
      { QueueUrl := "src", AttributeNames := [QueueAttributeNameApproximateNumberOfMessages] }],
    workers := [Worker.body, Worker.top],
    termListener := true, timerListener := true, progressLogger := true }

/-- The value of an outcome that returned. -/
def Result.toOption {α : Type} : Result α → Option α
  | .ok a => some a
  | _ => none

/-- An answer of `SendMessageBatch` that reports the id `m0` and an id `zz`
that was not in the request. -/
def straySendOutput : SendMessageBatchOutput :=
  { Successful := [{ Id := "m0", MessageId := "sent m0" }, { Id := "zz", MessageId := "sent zz" }],
    Failed := [] }

/-- What one loop body changes: the decrease of `remaining`, the increase of
`progress`, and the number of entries of each delete request it issued. -/
def roundSummary (w : World) (r : Result World) : Option (Int × Int × List Nat) :=
  r.toOption.map (fun w1 =>
    (w.p.remaining - w1.p.remaining, w1.progress - w.progress,
      (deleteRequests (newCalls w w1)).map (fun req => req.Entries.length)))

/-- A batch holding one message per id. -/
def batchOf (ids : List String) : ReceiveMessageOutput := { Messages := ids.map sampleMessage }

/-- An answer of `SendMessageBatch` that reports every id as successful. -/
def allSent (ids : List String) : SendMessageBatchOutput :=
  { Successful := ids.map (fun i => { Id := i, MessageId := "sent " ++ i }), Failed := [] }

/-- A full relay of 25 messages by 2 workers, in rounds of 10, 10 and 5
messages, after which both workers find the pipe done.  The second worker
lowers `p.remaining` while the first is between the two additions of
`DecrRemaining`. -/
def drainRun : List Event :=
  [ .check 0, .check 1,
    .round 0 (.ok (batchOf ["a0", "a1", "a2", "a3", "a4", "a5", "a6", "a7", "a8", "a9"]))
      (.ok (allSent ["a0", "a1", "a2", "a3", "a4", "a5", "a6", "a7", "a8", "a9"])) (.ok ()),
    .round 1 (.ok (batchOf ["b0", "b1", "b2", "b3", "b4", "b5", "b6", "b7", "b8", "b9"]))
      (.ok (allSent ["b0", "b1", "b2", "b3", "b4", "b5", "b6", "b7", "b8", "b9"])) (.ok ()),
    .account 0, .account 1,
    .check 0,
    .round 0 (.ok (batchOf ["c0", "c1", "c2", "c3", "c4"]))
      (.ok (allSent ["c0", "c1", "c2", "c3", "c4"])) (.ok ()),
    .account 0,
    .check 0, .check 1 ]

/-- A run that stops between the two additions of `DecrRemaining`: the first
worker has received `sampleBatch`, sent it with 7 successes, deleted the 7
messages and lowered `p.remaining` by 7; `progressAdd(7)` has not run yet. -/
def midAccountingRun : List Event :=
  [ .check 0, .round 0 (.ok sampleBatch) (.ok sampleSendOutput) (.ok ()) ]

/-- The amount that a worker inside `DecrRemaining` has taken from
`p.remaining` and not yet added to `progress`. -/
def Worker.pending : Worker → Int
  | .accounting v => (v : Int)
  | _ => 0

/-- The amounts of all the `DecrRemaining` calls that are between their two
atomic additions. -/
def pendingTotal (ws : List Worker) : Int := (ws.map Worker.pending).sum

/-- A run in which nothing is received: the idle timer fires, its listener
cancels the context, and the only worker finds the pipe done. -/
def idleRun : List Event := [.expire, .timeout, .check 0]

/-- The process after `Start(1)` on a source of 25 messages, once the only
worker has entered its loop, the idle timer has expired and its listener has
received the expiry notification and cancelled the context. -/
def consumedWorld : World :=
  { p := { SourceURL := "src", DestinationURL := "dst", MaxIdle := 60000000000,
           remaining := 25, idleTimer := some { armed := none, C := false },
           ctx := some (Context.mk true), wg := 1 },
    progress := 0, out := [],
    calls := [Call.GetQueueAttributes
      { QueueUrl := "src", AttributeNames := [QueueAttributeNameApproximateNumberOfMessages] }],
    workers := [Worker.body],
    termListener := true, timerListener := false, progressLogger := true }

/-- An answer of `GetQueueAttributes` without the size attribute. -/
def noSizeAttributes : GetQueueAttributesOutput := { Attributes := [] }

/-- An answer of `GetQueueAttributes` whose size attribute is not a number. -/
def badSizeAttributes : GetQueueAttributesOutput :=
  { Attributes := [(QueueAttributeNameApproximateNumberOfMessages, some "many")] }

/-- The round ends without a call of `DecrRemaining`: the receive fails, the
batch is empty, no received id is reported as sent, or the delete fails. -/
def endsWithoutAccounting (rmo : Except String ReceiveMessageOutput)
    (smo : Except String SendMessageBatchOutput) (dmo : Except String Unit) : Prop :=
  match rmo with
  | .error _ => True
  | .ok r =>
    r.Messages = [] ∨ confirmedEntries r.Messages smo = [] ∨ ∃ err, dmo = .error err

/-! # Theorems -/

/-! ## The sample states are states of runs -/

theorem sampleWorld_reached :
    runFromStart "src" "dst" 60000000000 2 sampleAttributes [.check 0] = some sampleWorld := by
  decide

theorem consumedWorld_reached :
    runFromStart "src" "dst" 60000000000 1 sampleAttributes [.check 0, .expire, .timeout] =
      some consumedWorld := by
  decide

/-! ## The request builders and the map of successes -/

theorem foldl_sendEntries (msgs : List Message) (bi : SendMessageBatchInput) :
    msgs.foldl
      (fun bi m =>
        { bi with Entries := bi.Entries ++ [{ Id := m.MessageId, MessageBody := m.Body }] })
      bi
    = { bi with Entries := bi.Entries ++
          msgs.map (fun m => ({ Id := m.MessageId, MessageBody := m.Body } :
            SendMessageBatchRequestEntry)) } := by
  induction msgs generalizing bi with
  | nil => simp
  | cons m ms ih => simp [List.foldl, ih, List.append_assoc]

theorem sendMessageBatchInput_eq (w : World) (msgs : List Message) :
    sendMessageBatchInput w msgs =
      { QueueUrl := w.p.DestinationURL,
        Entries := msgs.map (fun m => { Id := m.MessageId, MessageBody := m.Body }) } := by
  simp [sendMessageBatchInput, foldl_sendEntries]

theorem foldl_deleteEntries (successes : MapStringBool) (msgs : List Message)
    (acc : List DeleteMessageBatchRequestEntry) :
    msgs.foldl
      (fun entries m =>
        if !successes.get m.MessageId then entries
        else entries ++ [{ ReceiptHandle := m.ReceiptHandle, Id := m.MessageId }])
      acc
    = acc ++ (msgs.filter (fun m => successes.get m.MessageId)).map
        (fun m => ({ ReceiptHandle := m.ReceiptHandle, Id := m.MessageId } :
          DeleteMessageBatchRequestEntry)) := by
  induction msgs generalizing acc with
  | nil => simp
  | cons m ms ih =>
    rw [List.foldl_cons, ih]
    cases h : successes.get m.MessageId <;> simp [List.filter, h]

theorem deleteEntries_eq (msgs : List Message) (successes : MapStringBool) :
    deleteEntries msgs successes =
      (msgs.filter (fun m => successes.get m.MessageId)).map
        (fun m => { ReceiptHandle := m.ReceiptHandle, Id := m.MessageId }) := by
  unfold deleteEntries
  rw [foldl_deleteEntries]
  simp

theorem lookup_setPairs (k : String) (v : Bool) (l : List (String × Bool)) (k1 : String) :
    (MapStringBool.setPairs k v l).lookup k1 = if k1 = k then some v else l.lookup k1 := by
  induction l with
  | nil =>
    by_cases h : k1 = k
    · simp [MapStringBool.setPairs, List.lookup, h]
    · have hb : (k1 == k) = false := by simpa using h
      simp [MapStringBool.setPairs, List.lookup, h, hb]
  | cons a rest ih =>
    obtain ⟨ka, va⟩ := a
    by_cases hk : ka = k
    · subst hk
      by_cases h : k1 = ka
      · simp [MapStringBool.setPairs, List.lookup, h]
      · have hb : (k1 == ka) = false := by simpa using h
        simp [MapStringBool.setPairs, List.lookup, h, hb]
    · by_cases h1 : k1 = ka
      · subst h1
        simp [MapStringBool.setPairs, hk, List.lookup]
      · have hb : (k1 == ka) = false := by simpa using h1
        simp [MapStringBool.setPairs, hk, List.lookup, h1, hb, ih]

theorem get_set (m : MapStringBool) (k : String) (v : Bool) (k1 : String) :
    (m.set k v).get k1 = if k1 = k then v else m.get k1 := by
  unfold MapStringBool.get MapStringBool.set
  simp only [lookup_setPairs]
  by_cases h : k1 = k <;> simp [h]

theorem keys_setPairs (k : String) (v : Bool) (l : List (String × Bool)) :
    (MapStringBool.setPairs k v l).map Prod.fst =
      if k ∈ l.map Prod.fst then l.map Prod.fst else l.map Prod.fst ++ [k] := by
  induction l with
  | nil => simp [MapStringBool.setPairs]
  | cons a rest ih =>
    obtain ⟨ka, va⟩ := a
    by_cases hk : ka = k
    · subst hk
      simp [MapStringBool.setPairs]
    · have hk2 : ¬ k = ka := fun h => hk h.symm
      by_cases hin : k ∈ rest.map Prod.fst
      · simp [MapStringBool.setPairs, hk, hk2, ih, hin]
      · simp [MapStringBool.setPairs, hk, hk2, ih, hin]


theorem get_make (k : String) : MapStringBool.make.get k = false := by
  simp [MapStringBool.make, MapStringBool.get, List.lookup]

theorem get_foldl_set (es : List SendMessageBatchResultEntry) (m : MapStringBool)
    (k : String) :
    (es.foldl (fun oks e => oks.set e.Id true) m).get k =
      (m.get k || decide (k ∈ es.map (fun e => e.Id))) := by
  induction es generalizing m with
  | nil => simp
  | cons e rest ih =>
    rw [List.foldl_cons, ih, get_set]
    by_cases h : k = e.Id
    · simp [h]
    · simp [h]

theorem keys_set (m : MapStringBool) (k : String) (v : Bool) :
    (m.set k v).keys = if k ∈ m.keys then m.keys else m.keys ++ [k] := by
  simp [MapStringBool.keys, MapStringBool.set, keys_setPairs]

theorem keys_foldl_set (es : List SendMessageBatchResultEntry) (m : MapStringBool)
    (hm : m.keys.Nodup) :
    (es.foldl (fun oks e => oks.set e.Id true) m).keys.Nodup ∧
    (es.foldl (fun oks e => oks.set e.Id true) m).keys.toFinset =
      m.keys.toFinset ∪ (es.map (fun e => e.Id)).toFinset := by
  induction es generalizing m with
  | nil => simp [hm]
  | cons e rest ih =>
    rw [List.foldl_cons]
    have hn : (m.set e.Id true).keys.Nodup := by
      rw [keys_set]
      by_cases h : e.Id ∈ m.keys
      · simp [h, hm]
      · simp only [h, if_false]
        exact List.Nodup.append hm (List.nodup_singleton _) (by simpa using h)
    obtain ⟨h1, h2⟩ := ih (m.set e.Id true) hn
    refine ⟨h1, ?_⟩
    rw [h2, keys_set]
    by_cases h : e.Id ∈ m.keys
    · ext x
      simp only [h, if_true, List.map_cons, List.toFinset_cons, Finset.mem_union,
        List.mem_toFinset, Finset.mem_insert]
      constructor
      · rintro (hx | hx)
        · exact Or.inl hx
        · exact Or.inr (Or.inr hx)
      · rintro (hx | hx | hx)
        · exact Or.inl hx
        · exact Or.inl (hx ▸ h)
        · exact Or.inr hx
    · ext x
      simp only [h, if_false, List.map_cons, List.toFinset_cons, Finset.mem_union,
        List.mem_toFinset, Finset.mem_insert, List.mem_append, List.mem_singleton]
      tauto

theorem len_eq_card (m : MapStringBool) (hm : m.keys.Nodup) :
    m.len = m.keys.toFinset.card := by
  rw [List.toFinset_card_of_nodup hm]
  simp [MapStringBool.len, MapStringBool.keys]

theorem sendMessageBatch_world (w : World) (msgs : List Message)
    (smo : Except String SendMessageBatchOutput) :
    (sendMessageBatch w msgs smo).2 =
      { w with calls := w.calls ++ [Call.SendMessageBatch (sendMessageBatchInput w msgs)] } := by
  cases smo <;> rfl

theorem sendMessageBatch_get (w : World) (msgs : List Message)
    (smo : Except String SendMessageBatchOutput) (k : String) :
    (sendMessageBatch w msgs smo).1.get k = decide (k ∈ successIds smo) := by
  cases smo with
  | error e => simp [sendMessageBatch, successIds, get_make]
  | ok resp =>
    simp only [sendMessageBatch, successIds]
    split
    · rw [get_foldl_set, get_make]; simp
    · rename_i h
      have : resp.Successful = [] := by
        cases hs : resp.Successful with
        | nil => rfl
        | cons a l => simp [hs] at h
      simp [this, get_make]

theorem sendMessageBatch_len (w : World) (msgs : List Message)
    (smo : Except String SendMessageBatchOutput) :
    (sendMessageBatch w msgs smo).1.len = (successIds smo).toFinset.card := by
  cases smo with
  | error e => simp [sendMessageBatch, successIds, MapStringBool.make, MapStringBool.len]
  | ok resp =>
    simp only [sendMessageBatch, successIds]
    have hm : MapStringBool.make.keys.Nodup := by simp [MapStringBool.make, MapStringBool.keys]
    split
    · obtain ⟨h1, h2⟩ := keys_foldl_set resp.Successful MapStringBool.make hm
      rw [len_eq_card _ h1, h2]
      simp [MapStringBool.make, MapStringBool.keys]
    · rename_i h
      have : resp.Successful = [] := by
        cases hs : resp.Successful with
        | nil => rfl
        | cons a l => simp [hs] at h
      simp [this, MapStringBool.make, MapStringBool.len]

theorem deleteEntries_send (w : World) (msgs : List Message)
    (smo : Except String SendMessageBatchOutput) :
    deleteEntries msgs (sendMessageBatch w msgs smo).1 =
      (msgs.filter (fun m => decide (m.MessageId ∈ successIds smo))).map
        (fun m => { ReceiptHandle := m.ReceiptHandle, Id := m.MessageId }) := by
  rw [deleteEntries_eq]
  congr 1
  apply List.filter_congr
  intro m _
  exact sendMessageBatch_get w msgs smo m.MessageId

theorem filter_length_of_nodup (msgs : List Message) (succ : List String)
    (hnd : (msgs.map (fun m => m.MessageId)).Nodup)
    (hsub : ∀ x ∈ succ, x ∈ msgs.map (fun m => m.MessageId)) :
    (msgs.filter (fun m => decide (m.MessageId ∈ succ))).length = succ.toFinset.card := by
  have h1 : (msgs.filter (fun m => decide (m.MessageId ∈ succ))).length =
      ((msgs.map (fun m => m.MessageId)).filter (fun x => decide (x ∈ succ))).length := by
    rw [List.filter_map, List.length_map]
    rfl
  rw [h1, ← List.toFinset_card_of_nodup (hnd.filter _)]
  congr 1
  ext x
  simp only [List.mem_toFinset, List.mem_filter, decide_eq_true_eq]
  constructor
  · exact fun h => h.2
  · exact fun h => ⟨hsub x h, h⟩

/-! ## The idle timer and the loop body -/

theorem ResetTimer_of_canReset (w : World) (h : canReset w = true) :
    ∃ t1, t1.armed = some w.p.MaxIdle ∧
      ResetTimer w = .ok { w with p := { w.p with idleTimer := some t1 } } := by
  unfold canReset at h
  cases ht : w.p.idleTimer with
  | none => simp [ht] at h
  | some t =>
    simp only [ht, Bool.or_eq_true] at h
    obtain ⟨a, c⟩ := t
    cases a with
    | some d =>
      exact ⟨⟨some w.p.MaxIdle, c⟩, rfl, by simp [ResetTimer, ht, Timer.Stop, Timer.Reset]⟩
    | none =>
      simp at h
      subst h
      exact ⟨⟨some w.p.MaxIdle, false⟩, rfl,
        by simp [ResetTimer, ht, Timer.Stop, Timer.Reset, Timer.recv]⟩

theorem ResetTimer_frame (w r : World)
    (h : ResetTimer w = .ok r ∨ ResetTimer w = .blocked r) :
    ∃ t1, r = { w with p := { w.p with idleTimer := some t1 } } := by
  unfold ResetTimer at h
  cases ht : w.p.idleTimer with
  | none => simp [ht] at h
  | some t =>
    obtain ⟨a, c⟩ := t
    cases a <;> cases c <;>
      simp [ht, Timer.Stop, Timer.Reset, Timer.recv] at h <;>
      exact ⟨_, h.symm⟩

theorem runLoopBody_nonempty (w : World) (rmo : ReceiveMessageOutput)
    (smo : Except String SendMessageBatchOutput) (dmo : Except String Unit)
    (hne : rmo.Messages ≠ []) (hT : canReset w = true) :
    ∃ t1, t1.armed = some w.p.MaxIdle ∧
      runLoopBody w (.ok rmo) smo dmo =
        if confirmedEntries rmo.Messages smo = [] then
          .ok { w with
                p := { w.p with idleTimer := some t1 }
                calls := w.calls ++ [receiveCall w,
                  Call.SendMessageBatch (sendMessageBatchInput w rmo.Messages)] }
        else
          match dmo with
          | .error err =>
            .ok { w with
                  p := { w.p with idleTimer := some t1 }
                  calls := w.calls ++ [receiveCall w,
                    Call.SendMessageBatch (sendMessageBatchInput w rmo.Messages),
                    Call.DeleteMessageBatch
                      { QueueUrl := w.p.SourceURL,
                        Entries := confirmedEntries rmo.Messages smo }]
                  out := w.out ++ ["Error deleting messages with " ++
                    toString w.p.remaining ++ " remaining: " ++ err] }
          | .ok _ =>
            .ok { w with
                  p := { w.p with
                         idleTimer := some t1
                         remaining := w.p.remaining - ((successIds smo).toFinset.card : Int) }
                  progress := w.progress + ((successIds smo).toFinset.card : Int)
                  calls := w.calls ++ [receiveCall w,
                    Call.SendMessageBatch (sendMessageBatchInput w rmo.Messages),
                    Call.DeleteMessageBatch
                      { QueueUrl := w.p.SourceURL,
                        Entries := confirmedEntries rmo.Messages smo }] } := by
  have hT1 : canReset { w with calls := w.calls ++ [receiveCall w] } = true := hT
  obtain ⟨t1, ht1, hR⟩ := ResetTimer_of_canReset _ hT1
  refine ⟨t1, ht1, ?_⟩
  have hlen : ¬ rmo.Messages.length = 0 := by
    simpa [List.length_eq_zero] using hne
  unfold runLoopBody
  simp only [hlen, if_false]
  change (match ResetTimer { w with calls := w.calls ++ [receiveCall w] } with
    | .ok w2 => _ | .blocked w2 => _ | .panicked => _ | .exited c => _) = _
  rw [hR]
  simp only [deleteEntries_send, sendMessageBatch_world, sendMessageBatch_len,
    sendMessageBatchInput_eq, List.length_eq_zero]
  have hc : confirmedEntries rmo.Messages smo =
      (rmo.Messages.filter (fun m => decide (m.MessageId ∈ successIds smo))).map
        (fun m => { ReceiptHandle := m.ReceiptHandle, Id := m.MessageId }) := rfl
  rw [← hc]
  by_cases he : confirmedEntries rmo.Messages smo = []
  · simp [he]
  · simp only [he, if_false]
    cases dmo with
    | error err => simp [NumRemaning]
    | ok u =>
      simp only [DecrRemaining, progressAdd]
      congr 2
      · simp only [neg_mul, one_mul]
        rfl
      · simp

theorem ResetTimer_of_not_canReset (w : World) (h : canReset w = false) :
    ResetTimer w = .panicked ∨
      ∃ t1, ResetTimer w = .blocked { w with p := { w.p with idleTimer := some t1 } } := by
  unfold canReset at h
  cases ht : w.p.idleTimer with
  | none => left; simp [ResetTimer, ht]
  | some t =>
    obtain ⟨a, c⟩ := t
    cases a <;> cases c <;> simp [ht] at h
    right
    exact ⟨⟨none, false⟩, by simp [ResetTimer, ht, Timer.Stop, Timer.recv]⟩

theorem runLoopBody_stuck (w : World) (rmo : ReceiveMessageOutput)
    (smo : Except String SendMessageBatchOutput) (dmo : Except String Unit)
    (hne : rmo.Messages ≠ []) (hT : canReset w = false) :
    runLoopBody w (.ok rmo) smo dmo = .panicked ∨
      ∃ t1, runLoopBody w (.ok rmo) smo dmo =
        .blocked { w with
                   p := { w.p with idleTimer := some t1 }
                   calls := w.calls ++ [receiveCall w] } := by
  have hT1 : canReset { w with calls := w.calls ++ [receiveCall w] } = false := hT
  have hlen : ¬ rmo.Messages.length = 0 := by
    simpa [List.length_eq_zero] using hne
  rcases ResetTimer_of_not_canReset _ hT1 with hR | ⟨t1, hR⟩
  · left
    unfold runLoopBody
    simp only [hlen, if_false]
    simp only [receiveCall] at hR ⊢
    rw [hR]
  · right
    refine ⟨t1, ?_⟩
    unfold runLoopBody
    simp only [hlen, if_false]
    simp only [receiveCall] at hR ⊢
    rw [hR]

theorem runLoopBody_frame (w : World) (rmo : Except String ReceiveMessageOutput)
    (smo : Except String SendMessageBatchOutput) (dmo : Except String Unit) (r : World)
    (h : runLoopBody w rmo smo dmo = .ok r ∨ runLoopBody w rmo smo dmo = .blocked r) :
    ∃ (k : Nat) (t : Option Timer) (cs : List Call) (o : List String),
      r = { w with
            p := { w.p with remaining := w.p.remaining - (k : Int), idleTimer := t }
            progress := w.progress + (k : Int)
            calls := cs
            out := o } := by
  cases rmo with
  | error err =>
    refine ⟨0, w.p.idleTimer, r.calls, r.out, ?_⟩
    simp only [runLoopBody, Result.ok.injEq, reduceCtorEq, or_false] at h
    subst h
    simp
  | ok rmo =>
    by_cases hne : rmo.Messages = []
    · refine ⟨0, w.p.idleTimer, r.calls, r.out, ?_⟩
      simp only [runLoopBody, hne, List.length_nil, if_true, Result.ok.injEq, reduceCtorEq,
        or_false] at h
      subst h
      simp
    · cases hT : canReset w with
      | true =>
        obtain ⟨t1, _, hR⟩ := runLoopBody_nonempty w rmo smo dmo hne hT
        rw [hR] at h
        by_cases he : confirmedEntries rmo.Messages smo = []
        · simp only [he, if_true, Result.ok.injEq, reduceCtorEq, or_false] at h
          refine ⟨0, some t1, r.calls, r.out, ?_⟩
          subst h
          simp
        · simp only [he, if_false] at h
          cases dmo with
          | error err =>
            simp only [Result.ok.injEq, reduceCtorEq, or_false] at h
            refine ⟨0, some t1, r.calls, r.out, ?_⟩
            subst h
            simp
          | ok u =>
            simp only [Result.ok.injEq, reduceCtorEq, or_false] at h
            exact ⟨_, some t1, _, w.out, h.symm⟩
      | false =>
        rcases runLoopBody_stuck w rmo smo dmo hne hT with hR | ⟨t1, hR⟩
        · rw [hR] at h
          simp at h
        · rw [hR] at h
          simp only [reduceCtorEq, Result.blocked.injEq, false_or] at h
          refine ⟨0, some t1, r.calls, r.out, ?_⟩
          subst h
          simp

/-! ## The delete request (C1) -/

theorem newCalls_append (w w1 : World) (cs : List Call) (h : w1.calls = w.calls ++ cs) :
    newCalls w w1 = cs := by
  simp [newCalls, h]

/-- C1: in one loop body of `runLoop` on a non-empty batch, whatever the answer
of `SendMessageBatch`, the entries of the delete request are exactly the
received messages whose id is reported as successful, in received order, each
with its own id and receipt handle; every entry has an id of the success set;
and the round issues that request as its only delete request (none when there
is no such message). -/
theorem runLoop_delete_request_is_confirmed_sends (w : World) (rmo : ReceiveMessageOutput)
    (smo : Except String SendMessageBatchOutput) (dmo : Except String Unit)
    (hne : rmo.Messages ≠ []) :
    deleteEntries rmo.Messages (sendMessageBatch w rmo.Messages smo).1 =
        (rmo.Messages.filter (fun m => decide (m.MessageId ∈ successIds smo))).map
          (fun m => { ReceiptHandle := m.ReceiptHandle, Id := m.MessageId })
    ∧ (∀ e ∈ deleteEntries rmo.Messages (sendMessageBatch w rmo.Messages smo).1,
        e.Id ∈ successIds smo)
    ∧ (match runLoopBody w (.ok rmo) smo dmo with
       | .ok w1 =>
         deleteRequests (newCalls w w1) =
           if confirmedEntries rmo.Messages smo = [] then []
           else [{ QueueUrl := w.p.SourceURL, Entries := confirmedEntries rmo.Messages smo }]
       | .blocked w1 => deleteRequests (newCalls w w1) = []
       | .panicked => canReset w = false
       | .exited _ => False)
    ∧ (canReset w = true → ∃ w1, runLoopBody w (.ok rmo) smo dmo = .ok w1) := by
  refine ⟨deleteEntries_send w _ smo, ?_, ?_, ?_⟩
  · intro e he
    rw [deleteEntries_send] at he
    simp only [List.mem_map, List.mem_filter, decide_eq_true_eq] at he
    obtain ⟨m, ⟨_, hm⟩, rfl⟩ := he
    exact hm
  · cases hT : canReset w with
    | true =>
      obtain ⟨t1, _, hR⟩ := runLoopBody_nonempty w rmo smo dmo hne hT
      rw [hR]
      by_cases he : confirmedEntries rmo.Messages smo = []
      · simp only [he, if_true]
        rw [newCalls_append w _ [receiveCall w,
          Call.SendMessageBatch (sendMessageBatchInput w rmo.Messages)] rfl]
        rfl
      · simp only [he, if_false]
        cases dmo with
        | error err =>
          simp only []
          rw [newCalls_append w _ [receiveCall w,
            Call.SendMessageBatch (sendMessageBatchInput w rmo.Messages),
            Call.DeleteMessageBatch
              { QueueUrl := w.p.SourceURL, Entries := confirmedEntries rmo.Messages smo }] rfl]
          rfl
        | ok u =>
          simp only []
          rw [newCalls_append w _ [receiveCall w,
            Call.SendMessageBatch (sendMessageBatchInput w rmo.Messages),
            Call.DeleteMessageBatch
              { QueueUrl := w.p.SourceURL, Entries := confirmedEntries rmo.Messages smo }] rfl]
          rfl
    | false =>
      rcases runLoopBody_stuck w rmo smo dmo hne hT with hR | ⟨t1, hR⟩
      · rw [hR]
      · rw [hR]
        simp only []
        rw [newCalls_append w _ [receiveCall w] rfl]
        rfl
  · intro hT
    obtain ⟨t1, _, hR⟩ := runLoopBody_nonempty w rmo smo dmo hne hT
    rw [hR]
    by_cases he : confirmedEntries rmo.Messages smo = []
    · rw [if_pos he]
      exact ⟨_, rfl⟩
    · rw [if_neg he]
      cases dmo with
      | error err => exact ⟨_, rfl⟩
      | ok u => exact ⟨_, rfl⟩

theorem runLoop_delete_request_is_confirmed_sends_witness :
    sampleBatch.Messages ≠ [] ∧
    deleteEntries sampleBatch.Messages
        (sendMessageBatch sampleWorld sampleBatch.Messages (.ok sampleSendOutput)).1 =
      ["m0", "m2", "m3", "m5", "m6", "m8", "m9"].map
        (fun i => { ReceiptHandle := "receipt of " ++ i, Id := i }) :=
  ⟨by decide,
   (runLoop_delete_request_is_confirmed_sends sampleWorld sampleBatch (.ok sampleSendOutput)
      (.ok ()) (by decide)).1.trans (by decide)⟩

/-! ## The send request (C6) and failed calls (C3) -/

/-- C6: for every batch of received messages and every answer of the
destination, `sendMessageBatch` makes one `SendMessageBatch` call whose request
holds one entry per received message, in the same order, the i-th entry having
the id and the unchanged body of the i-th message; the request does not depend
on the receipt handles. -/
theorem sendMessageBatch_request (w : World) (messages : List Message)
    (resp : Except String SendMessageBatchOutput) :
    (sendMessageBatch w messages resp).2.calls =
        w.calls ++ [Call.SendMessageBatch (sendMessageBatchInput w messages)]
    ∧ (sendMessageBatchInput w messages).QueueUrl = w.p.DestinationURL
    ∧ (sendMessageBatchInput w messages).Entries =
        messages.map (fun m => { Id := m.MessageId, MessageBody := m.Body })
    ∧ (sendMessageBatchInput w messages).Entries.length = messages.length
    ∧ (∀ i : Nat, (sendMessageBatchInput w messages).Entries[i]? =
        messages[i]?.map (fun m => { Id := m.MessageId, MessageBody := m.Body }))
    ∧ (∀ handle : Message → String,
        sendMessageBatchInput w (messages.map (fun m => { m with ReceiptHandle := handle m })) =
          sendMessageBatchInput w messages) := by
  refine ⟨?_, ?_, ?_, ?_, ?_, ?_⟩
  · rw [sendMessageBatch_world]
  · rw [sendMessageBatchInput_eq]
  · rw [sendMessageBatchInput_eq]
  · rw [sendMessageBatchInput_eq]; simp
  · intro i
    rw [sendMessageBatchInput_eq]
    simp
  · intro handle
    rw [sendMessageBatchInput_eq, sendMessageBatchInput_eq]
    simp [Function.comp_def]

/-- C3: a loop body of `runLoop` on a non-empty batch in which
`SendMessageBatch` fails as a call, or in which `DeleteMessageBatch` fails,
returns with `remaining` and `progress` unchanged.  When the send fails the map
of successes is empty, no delete entry is built, and the calls of the round
are the receive and the send only. -/
theorem runLoop_failed_call_keeps_counters (w : World) (rmo : ReceiveMessageOutput)
    (smo : Except String SendMessageBatchOutput) (dmo : Except String Unit) (err : String)
    (hne : rmo.Messages ≠ []) (hT : canReset w = true) :
    (∃ w1, runLoopBody w (.ok rmo) (.error err) dmo = .ok w1
        ∧ w1.p.remaining = w.p.remaining ∧ w1.progress = w.progress
        ∧ (sendMessageBatch w rmo.Messages (.error err)).1.len = 0
        ∧ (∀ k, (sendMessageBatch w rmo.Messages (.error err)).1.get k = false)
        ∧ deleteEntries rmo.Messages (sendMessageBatch w rmo.Messages (.error err)).1 = []
        ∧ newCalls w w1 =
            [receiveCall w, Call.SendMessageBatch (sendMessageBatchInput w rmo.Messages)]
        ∧ deleteRequests (newCalls w w1) = [])
    ∧ (∃ w1, runLoopBody w (.ok rmo) smo (.error err) = .ok w1
        ∧ w1.p.remaining = w.p.remaining ∧ w1.progress = w.progress
        ∧ (confirmedEntries rmo.Messages smo ≠ [] →
            deleteRequests (newCalls w w1) =
              [{ QueueUrl := w.p.SourceURL, Entries := confirmedEntries rmo.Messages smo }])) := by
  constructor
  · obtain ⟨t1, _, hR⟩ := runLoopBody_nonempty w rmo (.error err) dmo hne hT
    have he : confirmedEntries rmo.Messages (.error err) = [] := by
      simp [confirmedEntries, successIds]
    rw [if_pos he] at hR
    refine ⟨_, hR, rfl, rfl, rfl, ?_, ?_, ?_, ?_⟩
    · intro k
      rw [sendMessageBatch_get]
      simp [successIds]
    · rw [deleteEntries_send]
      exact he
    · exact newCalls_append w _ _ rfl
    · rw [newCalls_append w _ [receiveCall w,
        Call.SendMessageBatch (sendMessageBatchInput w rmo.Messages)] rfl]
      rfl
  · obtain ⟨t1, _, hR⟩ := runLoopBody_nonempty w rmo smo (.error err) hne hT
    by_cases he : confirmedEntries rmo.Messages smo = []
    · rw [if_pos he] at hR
      exact ⟨_, hR, rfl, rfl, fun h => absurd he h⟩
    · rw [if_neg he] at hR
      refine ⟨_, hR, rfl, rfl, fun _ => ?_⟩
      rw [newCalls_append w _ [receiveCall w,
        Call.SendMessageBatch (sendMessageBatchInput w rmo.Messages),
        Call.DeleteMessageBatch
          { QueueUrl := w.p.SourceURL, Entries := confirmedEntries rmo.Messages smo }] rfl]
      rfl

theorem runLoop_failed_call_keeps_counters_witness :
    (∃ w1, runLoopBody sampleWorld (.ok sampleBatch) (.error "ServiceUnavailable") (.ok ()) =
        .ok w1 ∧ w1.p.remaining = 25 ∧ w1.progress = 0 ∧ deleteRequests (newCalls sampleWorld w1) = [])
    ∧ (∃ w1, runLoopBody sampleWorld (.ok sampleBatch) (.ok sampleSendOutput)
        (.error "ServiceUnavailable") = .ok w1 ∧ w1.p.remaining = 25 ∧ w1.progress = 0) := by
  have h := runLoop_failed_call_keeps_counters sampleWorld sampleBatch (.ok sampleSendOutput)
    (.ok ()) "ServiceUnavailable" (by decide) (by decide)
  obtain ⟨⟨w1, h1, h2, h3, _, _, _, _, h4⟩, ⟨w2, k1, k2, k3, _⟩⟩ := h
  exact ⟨⟨w1, h1, h2, h3, h4⟩, ⟨w2, k1, k2, k3⟩⟩

/-! ## Accounting of a round (C4, C2) -/

/-- C4: when the received messages have pairwise distinct ids and the
destination reports exactly `k ≥ 1` of those ids as successful (whatever it
reports as failed), a loop body of `runLoop` with a successful delete returns,
issues one delete request of exactly `k` entries, lowers `remaining` by `k`
and raises `progress` by `k`. -/
theorem runLoop_partial_success_round (w : World) (rmo : ReceiveMessageOutput)
    (resp : SendMessageBatchOutput) (k : Nat)
    (hnd : (rmo.Messages.map (fun m => m.MessageId)).Nodup)
    (hsub : ∀ x ∈ resp.Successful.map (fun e => e.Id),
      x ∈ rmo.Messages.map (fun m => m.MessageId))
    (hk : (resp.Successful.map (fun e => e.Id)).toFinset.card = k)
    (hk1 : 1 ≤ k) (hT : canReset w = true) :
    ∃ w1, runLoopBody w (.ok rmo) (.ok resp) (.ok ()) = .ok w1
      ∧ (deleteRequests (newCalls w w1)).map (fun req => req.Entries.length) = [k]
      ∧ w1.p.remaining = w.p.remaining - (k : Int)
      ∧ w1.progress = w.progress + (k : Int) := by
  have hlen : (confirmedEntries rmo.Messages (.ok resp)).length = k := by
    unfold confirmedEntries
    rw [List.length_map, filter_length_of_nodup rmo.Messages (successIds (.ok resp)) hnd hsub]
    exact hk
  have he : confirmedEntries rmo.Messages (.ok resp) ≠ [] := by
    intro h
    rw [h] at hlen
    simp at hlen
    omega
  have hne : rmo.Messages ≠ [] := by
    intro h
    apply he
    simp [confirmedEntries, h]
  obtain ⟨t1, _, hR⟩ := runLoopBody_nonempty w rmo (.ok resp) (.ok ()) hne hT
  rw [if_neg he] at hR
  have hk2 : (successIds (.ok resp)).toFinset.card = k := hk
  refine ⟨_, hR, ?_, ?_, ?_⟩
  · rw [newCalls_append w _ [receiveCall w,
      Call.SendMessageBatch (sendMessageBatchInput w rmo.Messages),
      Call.DeleteMessageBatch
        { QueueUrl := w.p.SourceURL, Entries := confirmedEntries rmo.Messages (.ok resp) }] rfl]
    simp [deleteRequests, receiveCall, hlen]
  · simp only [hk2]
  · simp only [hk2]

theorem runLoop_partial_success_round_witness :
    ∃ w1, runLoopBody sampleWorld (.ok sampleBatch) (.ok sampleSendOutput) (.ok ()) = .ok w1
      ∧ (deleteRequests (newCalls sampleWorld w1)).map (fun req => req.Entries.length) = [7]
      ∧ w1.p.remaining = sampleWorld.p.remaining - 7
      ∧ w1.progress = sampleWorld.progress + 7 :=
  runLoop_partial_success_round sampleWorld sampleBatch sampleSendOutput 7
    (by decide) (by decide) (by decide) (by decide) (by decide)

/-- C2 fails as stated: with a send answer that names an id outside the
batch, a round with a successful delete lowers `remaining` by 2 while its
delete request has 1 entry; with a batch that holds the same id twice, it
lowers `remaining` by 1 while its delete request has 2 entries. -/
theorem runLoop_decrement_differs_from_delete_count :
    roundSummary sampleWorld
        (runLoopBody sampleWorld (.ok { Messages := [sampleMessage "m0"] })
          (.ok straySendOutput) (.ok ())) = some (2, 2, [1])
    ∧ roundSummary sampleWorld
        (runLoopBody sampleWorld (.ok { Messages := [sampleMessage "m0", sampleMessage "m0"] })
          (.ok { Successful := [{ Id := "m0", MessageId := "sent m0" }], Failed := [] })
          (.ok ())) = some (1, 1, [2]) := by
  constructor <;> decide

/-- C2, amended: in a loop body of `runLoop` whose delete request is issued
and succeeds, when the received ids are pairwise distinct and every id that
the send answer reports as successful is the id of a received message, the
amount passed to `DecrRemaining` (the decrease of `remaining` and the increase
of `progress`) is the number of entries of the delete request of the round.
In general the amount is `len(successes)`, the number of distinct ids reported
as successful. -/
theorem runLoop_decrements_by_delete_count (w : World) (rmo : ReceiveMessageOutput)
    (smo : Except String SendMessageBatchOutput)
    (hT : canReset w = true) (he : confirmedEntries rmo.Messages smo ≠ [])
    (hnd : (rmo.Messages.map (fun m => m.MessageId)).Nodup)
    (hsub : ∀ x ∈ successIds smo, x ∈ rmo.Messages.map (fun m => m.MessageId)) :
    ∃ w1 req, runLoopBody w (.ok rmo) smo (.ok ()) = .ok w1
      ∧ deleteRequests (newCalls w w1) = [req]
      ∧ req.Entries = confirmedEntries rmo.Messages smo
      ∧ w.p.remaining - w1.p.remaining = (req.Entries.length : Int)
      ∧ w1.progress - w.progress = (req.Entries.length : Int)
      ∧ (sendMessageBatch w rmo.Messages smo).1.len = req.Entries.length := by
  have hne : rmo.Messages ≠ [] := by
    intro h
    apply he
    simp [confirmedEntries, h]
  have hlen : (confirmedEntries rmo.Messages smo).length = (successIds smo).toFinset.card := by
    unfold confirmedEntries
    rw [List.length_map, filter_length_of_nodup rmo.Messages _ hnd hsub]
  obtain ⟨t1, _, hR⟩ := runLoopBody_nonempty w rmo smo (.ok ()) hne hT
  rw [if_neg he] at hR
  refine ⟨_, { QueueUrl := w.p.SourceURL, Entries := confirmedEntries rmo.Messages smo },
    hR, ?_, rfl, ?_, ?_, ?_⟩
  · rw [newCalls_append w _ [receiveCall w,
      Call.SendMessageBatch (sendMessageBatchInput w rmo.Messages),
      Call.DeleteMessageBatch
        { QueueUrl := w.p.SourceURL, Entries := confirmedEntries rmo.Messages smo }] rfl]
    rfl
  · simp [hlen]
  · simp [hlen]
  · rw [sendMessageBatch_len, hlen]

theorem runLoop_decrements_by_delete_count_witness :
    ∃ w1, runLoopBody sampleWorld (.ok sampleBatch) (.ok sampleSendOutput) (.ok ()) = .ok w1
      ∧ sampleWorld.p.remaining - w1.p.remaining = 7
      ∧ (deleteRequests (newCalls sampleWorld w1)).map (fun req => req.Entries.length) = [7] := by
  obtain ⟨w1, req, h1, h2, h3, h4, _, _⟩ :=
    runLoop_decrements_by_delete_count sampleWorld sampleBatch (.ok sampleSendOutput)
      (by decide) (by decide) (by decide) (by decide)
  have h7 : (confirmedEntries sampleBatch.Messages (.ok sampleSendOutput)).length = 7 := by
    decide
  rw [h3, h7] at h4
  refine ⟨w1, h1, h4, ?_⟩
  rw [h2]
  simp [h3, h7]

/-! ## Steps of a run -/

theorem IsDone_ok (w : World) (b : Bool) (w1 : World) (h : IsDone w = .ok (b, w1)) :
    (∃ lines, w1 = { w with out := w.out ++ lines }) ∧
    (b = true ↔ (w.p.remaining ≤ 0 ∨ fired w = true)) := by
  unfold IsDone at h
  by_cases hr : w.p.remaining ≤ 0
  · simp only [hr, if_true, Result.ok.injEq, Prod.mk.injEq] at h
    obtain ⟨rfl, rfl⟩ := h
    exact ⟨⟨_, rfl⟩, by simp [hr]⟩
  · simp only [hr, if_false] at h
    cases hc : w.p.ctx with
    | none => simp [hc] at h
    | some c =>
      simp only [hc] at h
      cases hd : c.done with
      | true =>
        simp only [hd, if_true, Result.ok.injEq, Prod.mk.injEq] at h
        obtain ⟨rfl, rfl⟩ := h
        exact ⟨⟨_, rfl⟩, by simp [fired, hc, hd]⟩
      | false =>
        simp only [hd, Bool.false_eq_true, if_false, Result.ok.injEq, Prod.mk.injEq] at h
        obtain ⟨rfl, rfl⟩ := h
        exact ⟨⟨[], by simp⟩, by simp [fired, hc, hd, hr]⟩

theorem IsDone_total (w : World) (h : w.p.ctx ≠ none ∨ w.p.remaining ≤ 0) :
    ∃ w1, IsDone w = .ok (decide (w.p.remaining ≤ 0 ∨ fired w = true), w1) := by
  unfold IsDone
  by_cases hr : w.p.remaining ≤ 0
  · simp only [hr, if_true, true_or, decide_True]
    exact ⟨_, rfl⟩
  · cases hc : w.p.ctx with
    | none => simp [hc, hr] at h
    | some c =>
      cases hd : c.done with
      | true =>
        simp only [hr, if_false, hd, if_true, fired, hc, or_true, decide_True]
        exact ⟨_, rfl⟩
      | false =>
        simp only [hr, if_false, hd, fired, hc, Bool.false_eq_true, or_false, decide_False]
        exact ⟨_, rfl⟩

theorem step_check (w : World) (i : Nat) (w1 : World) (h : step w (.check i) = some w1) :
    w.workers[i]? = some Worker.top ∧
    ∃ b lines, (b = true ↔ (w.p.remaining ≤ 0 ∨ fired w = true)) ∧
      w1 = (if b then
        { w with
          out := w.out ++ lines
          p := { w.p with wg := w.p.wg - 1 }
          workers := w.workers.set i Worker.exited }
      else { w with out := w.out ++ lines, workers := w.workers.set i Worker.body }) := by
  unfold step at h
  cases hw : w.workers[i]? with
  | none => simp [hw] at h
  | some x =>
    cases x <;> simp only [hw] at h <;> try exact absurd h (by simp)
    refine ⟨rfl, ?_⟩
    cases hD : IsDone w with
    | ok r =>
      obtain ⟨b, w0⟩ := r
      obtain ⟨⟨lines, rfl⟩, hb⟩ := IsDone_ok w b w0 hD
      rw [hD] at h
      cases b with
      | true =>
        simp only [Option.some.injEq] at h
        exact ⟨true, lines, hb, by simp [← h]⟩
      | false =>
        simp only [Option.some.injEq] at h
        exact ⟨false, lines, hb, by simp [← h]⟩
    | blocked r => rw [hD] at h; simp at h
    | panicked => rw [hD] at h; simp at h
    | exited c => rw [hD] at h; simp at h

theorem runLoopBody_eq_calls (w : World) (rmo : Except String ReceiveMessageOutput)
    (smo : Except String SendMessageBatchOutput) (dmo : Except String Unit) :
    runLoopBody w rmo smo dmo =
      match runLoopCalls w rmo smo dmo with
      | .ok (w1, some v) => .ok (DecrRemaining w1 (v : Int))
      | .ok (w1, none) => .ok w1
      | .blocked (w1, _) => .blocked w1
      | .panicked => .panicked
      | .exited c => .exited c := by
  unfold runLoopBody runLoopCalls
  cases rmo with
  | error err => rfl
  | ok r =>
    simp only []
    by_cases hlen : r.Messages.length = 0
    · simp only [hlen, if_true]
    · simp only [hlen, if_false]
      generalize ResetTimer _ = res
      cases res with
      | ok w2 =>
        simp only []
        split
        · rfl
        · cases dmo <;> rfl
      | blocked w2 => rfl
      | panicked => rfl
      | exited c => rfl

theorem runLoopCalls_frame (w : World) (rmo : Except String ReceiveMessageOutput)
    (smo : Except String SendMessageBatchOutput) (dmo : Except String Unit) (r : World)
    (o : Option Nat)
    (h : runLoopCalls w rmo smo dmo = .ok (r, o) ∨ runLoopCalls w rmo smo dmo = .blocked (r, o)) :
    ∃ (t : Option Timer) (cs : List Call) (out : List String),
      r = { w with p := { w.p with idleTimer := t }, calls := cs, out := out } := by
  unfold runLoopCalls at h
  cases rmo with
  | error err =>
    simp only [Result.ok.injEq, Prod.mk.injEq, reduceCtorEq, or_false] at h
    obtain ⟨rfl, _⟩ := h
    exact ⟨w.p.idleTimer, _, _, rfl⟩
  | ok rm =>
    simp only [] at h
    by_cases hlen : rm.Messages.length = 0
    · simp only [hlen, if_true, Result.ok.injEq, Prod.mk.injEq, reduceCtorEq, or_false] at h
      obtain ⟨rfl, _⟩ := h
      exact ⟨w.p.idleTimer, _, _, rfl⟩
    · simp only [hlen, if_false] at h
      generalize hR : ResetTimer _ = res at h
      cases res with
      | ok w2 =>
        obtain ⟨t1, rfl⟩ := ResetTimer_frame _ w2 (Or.inl hR)
        simp only [sendMessageBatch_world] at h
        split at h
        · simp only [Result.ok.injEq, Prod.mk.injEq, reduceCtorEq, or_false] at h
          obtain ⟨rfl, _⟩ := h
          exact ⟨some t1, _, _, rfl⟩
        · cases dmo with
          | error err =>
            simp only [Result.ok.injEq, Prod.mk.injEq, reduceCtorEq, or_false] at h
            obtain ⟨rfl, _⟩ := h
            exact ⟨some t1, _, _, rfl⟩
          | ok u =>
            simp only [Result.ok.injEq, Prod.mk.injEq, reduceCtorEq, or_false] at h
            obtain ⟨rfl, _⟩ := h
            exact ⟨some t1, _, _, rfl⟩
      | blocked w2 =>
        obtain ⟨t1, rfl⟩ := ResetTimer_frame _ w2 (Or.inr hR)
        simp only [reduceCtorEq, Result.blocked.injEq, Prod.mk.injEq, false_or] at h
        obtain ⟨rfl, _⟩ := h
        exact ⟨some t1, _, _, rfl⟩
      | panicked => simp at h
      | exited c => simp at h

theorem step_round (w : World) (i : Nat) (rmo : Except String ReceiveMessageOutput)
    (smo : Except String SendMessageBatchOutput) (dmo : Except String Unit) (w1 : World)
    (h : step w (.round i rmo smo dmo) = some w1) :
    w.workers[i]? = some Worker.body ∧
    ∃ (k : Nat) (t : Option Timer) (cs : List Call) (o : List String) (x : Worker),
      ((x = Worker.top ∧ k = 0) ∨ (x = Worker.stuck ∧ k = 0) ∨ x = Worker.accounting k) ∧
      w1 = { w with
             p := { w.p with remaining := w.p.remaining - (k : Int), idleTimer := t }
             calls := cs
             out := o
             workers := w.workers.set i x } := by
  unfold step at h
  cases hw : w.workers[i]? with
  | none => simp [hw] at h
  | some x =>
    cases x <;> simp only [hw] at h <;> try exact absurd h (by simp)
    refine ⟨rfl, ?_⟩
    cases hB : runLoopCalls w rmo smo dmo with
    | ok r =>
      obtain ⟨r, o⟩ := r
      obtain ⟨t, cs, out, rfl⟩ := runLoopCalls_frame w rmo smo dmo r o (Or.inl hB)
      rw [hB] at h
      cases o with
      | none =>
        simp only [Option.some.injEq] at h
        refine ⟨0, t, cs, out, Worker.top, Or.inl ⟨rfl, rfl⟩, ?_⟩
        rw [← h]
        simp
      | some v =>
        simp only [Option.some.injEq] at h
        refine ⟨v, t, cs, out, Worker.accounting v, Or.inr (Or.inr rfl), ?_⟩
        rw [← h]
        simp only [addRemaining, neg_mul, one_mul]
        rfl
    | blocked r =>
      obtain ⟨r, o⟩ := r
      obtain ⟨t, cs, out, rfl⟩ := runLoopCalls_frame w rmo smo dmo r o (Or.inr hB)
      rw [hB] at h
      simp only [Option.some.injEq] at h
      refine ⟨0, t, cs, out, Worker.stuck, Or.inr (Or.inl ⟨rfl, rfl⟩), ?_⟩
      rw [← h]
      simp
    | panicked => rw [hB] at h; simp at h
    | exited c => rw [hB] at h; simp at h

theorem step_account (w : World) (i : Nat) (w1 : World) (h : step w (.account i) = some w1) :
    ∃ v : Nat, w.workers[i]? = some (Worker.accounting v) ∧
      w1 = { w with
             progress := w.progress + (v : Int)
             workers := w.workers.set i Worker.top } := by
  unfold step at h
  cases hw : w.workers[i]? with
  | none => simp [hw] at h
  | some x =>
    cases x with
    | accounting v =>
      simp only [hw, Option.some.injEq] at h
      exact ⟨v, rfl, h.symm⟩
    | _ => simp [hw] at h

theorem pendingTotal_set (ws : List Worker) (i : Nat) (a b : Worker)
    (ha : ws[i]? = some a) :
    pendingTotal (ws.set i b) = pendingTotal ws - a.pending + b.pending := by
  induction ws generalizing i with
  | nil => simp at ha
  | cons x xs ih =>
    cases i with
    | zero =>
      simp only [List.getElem?_cons_zero, Option.some.injEq] at ha
      subst ha
      simp only [pendingTotal, List.set_cons_zero, List.map_cons, List.sum_cons]
      ring
    | succ j =>
      simp only [List.getElem?_cons_succ] at ha
      have := ih j ha
      simp only [pendingTotal, List.set_cons_succ, List.map_cons, List.sum_cons] at this ⊢
      rw [this]
      ring

theorem step_counters (w : World) (e : Event) (w1 : World) (h : step w e = some w1) :
    ∃ k j : Nat, w1.p.remaining = w.p.remaining - (k : Int)
      ∧ w1.progress = w.progress + (j : Int)
      ∧ w1.p.ctx.isSome = w.p.ctx.isSome
      ∧ w1.workers.length = w.workers.length
      ∧ w1.p.remaining + w1.progress + pendingTotal w1.workers =
          w.p.remaining + w.progress + pendingTotal w.workers := by
  cases e with
  | interrupt =>
    refine ⟨0, 0, ?_⟩
    unfold step at h
    by_cases ht : w.termListener = true
    · simp only [ht, if_true, Option.some.injEq] at h
      subst h
      cases hc : w.p.ctx <;> simp [cancel, hc]
    · simp [ht] at h
  | expire =>
    refine ⟨0, 0, ?_⟩
    unfold step at h
    cases hi : w.p.idleTimer with
    | none => simp [hi] at h
    | some t =>
      simp only [hi] at h
      cases hf : t.fire with
      | none => simp [hf] at h
      | some t1 =>
        simp only [hf, Option.some.injEq] at h
        subst h
        simp
  | timeout =>
    refine ⟨0, 0, ?_⟩
    unfold step at h
    by_cases ht : w.timerListener = true
    · simp only [ht, if_true] at h
      cases hi : w.p.idleTimer with
      | none => simp [hi] at h
      | some t =>
        simp only [hi] at h
        cases hf : t.recv with
        | none => simp [hf] at h
        | some t1 =>
          simp only [hf, Option.some.injEq] at h
          subst h
          cases hc : w.p.ctx <;> simp [cancel, hc]
    · simp [ht] at h
  | check i =>
    obtain ⟨hi, b, lines, _, rfl⟩ := step_check w i w1 h
    refine ⟨0, 0, ?_⟩
    cases b with
    | true =>
      have := pendingTotal_set w.workers i Worker.top Worker.exited hi
      simp only [Worker.pending, sub_zero, add_zero] at this
      simp [this]
    | false =>
      have := pendingTotal_set w.workers i Worker.top Worker.body hi
      simp only [Worker.pending, sub_zero, add_zero] at this
      simp [this]
  | round i rmo smo dmo =>
    obtain ⟨hi, k, t, cs, o, x, hx, rfl⟩ := step_round w i rmo smo dmo w1 h
    refine ⟨k, 0, rfl, by simp, rfl, by simp, ?_⟩
    have := pendingTotal_set w.workers i Worker.body x hi
    simp only [Worker.pending, sub_zero] at this
    simp only [this]
    rcases hx with ⟨rfl, rfl⟩ | ⟨rfl, rfl⟩ | rfl
    · simp [Worker.pending]
    · simp [Worker.pending]
    · simp only [Worker.pending]
      ring
  | account i =>
    obtain ⟨v, hi, rfl⟩ := step_account w i w1 h
    refine ⟨0, v, by simp, rfl, rfl, by simp, ?_⟩
    have := pendingTotal_set w.workers i (Worker.accounting v) Worker.top hi
    simp only [Worker.pending, add_zero] at this
    simp only [this]
    ring

theorem step_quiet (w : World) (e : Event) (w1 : World) (h : step w e = some w1)
    (hi : e.isInterrupt = false) (ht : e.isTimeout = false) : w1.p.ctx = w.p.ctx := by
  cases e with
  | interrupt => simp [Event.isInterrupt] at hi
  | timeout => simp [Event.isTimeout] at ht
  | expire =>
    unfold step at h
    cases hi : w.p.idleTimer with
    | none => simp [hi] at h
    | some t =>
      simp only [hi] at h
      cases hf : t.fire with
      | none => simp [hf] at h
      | some t1 =>
        simp only [hf, Option.some.injEq] at h
        subst h
        rfl
  | check i =>
    obtain ⟨_, b, lines, _, rfl⟩ := step_check w i w1 h
    cases b <;> rfl
  | round i rmo smo dmo =>
    obtain ⟨_, k, t, cs, o, x, _, rfl⟩ := step_round w i rmo smo dmo w1 h
    rfl
  | account i =>
    obtain ⟨v, _, rfl⟩ := step_account w i w1 h
    rfl

theorem step_no_exit (w : World) (e : Event) (w1 : World) (h : step w e = some w1)
    (hf : fired w = false) (hrem : 0 < w.p.remaining)
    (hx : ∀ x ∈ w.workers, x ≠ Worker.exited) :
    ∀ x ∈ w1.workers, x ≠ Worker.exited := by
  cases e with
  | interrupt =>
    unfold step at h
    by_cases ht : w.termListener = true
    · simp only [ht, if_true, Option.some.injEq] at h
      subst h
      exact hx
    · simp [ht] at h
  | expire =>
    unfold step at h
    cases hi : w.p.idleTimer with
    | none => simp [hi] at h
    | some t =>
      simp only [hi] at h
      cases hf : t.fire with
      | none => simp [hf] at h
      | some t1 =>
        simp only [hf, Option.some.injEq] at h
        subst h
        exact hx
  | timeout =>
    unfold step at h
    by_cases ht : w.timerListener = true
    · simp only [ht, if_true] at h
      cases hi : w.p.idleTimer with
      | none => simp [hi] at h
      | some t =>
        simp only [hi] at h
        cases hf : t.recv with
        | none => simp [hf] at h
        | some t1 =>
          simp only [hf, Option.some.injEq] at h
          subst h
          exact hx
    · simp [ht] at h
  | check i =>
    obtain ⟨_, b, lines, hb, rfl⟩ := step_check w i w1 h
    cases b with
    | true =>
      have := hb.mp rfl
      rcases this with h1 | h1
      · omega
      · rw [hf] at h1; simp at h1
    | false =>
      intro x hxm
      simp only [Bool.false_eq_true, if_false] at hxm
      rcases List.mem_or_eq_of_mem_set hxm with h1 | h1
      · exact hx x h1
      · rw [h1]; simp
  | round i rmo smo dmo =>
    obtain ⟨_, k, t, cs, o, y, hy, rfl⟩ := step_round w i rmo smo dmo w1 h
    intro x hxm
    rcases List.mem_or_eq_of_mem_set hxm with h1 | h1
    · exact hx x h1
    · rw [h1]
      rcases hy with ⟨rfl, _⟩ | ⟨rfl, _⟩ | rfl <;> simp
  | account i =>
    obtain ⟨v, _, rfl⟩ := step_account w i w1 h
    intro x hxm
    rcases List.mem_or_eq_of_mem_set hxm with h1 | h1
    · exact hx x h1
    · rw [h1]; simp

/-! ## `Start` and whole runs -/

theorem countRemainingMessages_ok (w : World) (qao : GetQueueAttributesOutput) :
    ∃ v, countRemainingMessages w (.ok qao) =
        .ok (v, { w with calls := w.calls ++ [Call.GetQueueAttributes
          { QueueUrl := w.p.SourceURL,
            AttributeNames := [QueueAttributeNameApproximateNumberOfMessages] }] })
      ∧ (qao.Attributes.lookup QueueAttributeNameApproximateNumberOfMessages = none → v = 0)
      ∧ (qao.Attributes.lookup QueueAttributeNameApproximateNumberOfMessages = some none →
          v = 0)
      ∧ (∀ s, qao.Attributes.lookup QueueAttributeNameApproximateNumberOfMessages =
          some (some s) → ParseInt s = none → v = 0)
      ∧ (∀ s vi, qao.Attributes.lookup QueueAttributeNameApproximateNumberOfMessages =
          some (some s) → ParseInt s = some vi → v = vi) := by
  unfold countRemainingMessages
  cases hl : qao.Attributes.lookup QueueAttributeNameApproximateNumberOfMessages with
  | none => exact ⟨0, by simp [hl]⟩
  | some o =>
    cases o with
    | none => exact ⟨0, by simp [hl]⟩
    | some s =>
      cases hp : ParseInt s with
      | none =>
        refine ⟨0, by simp [hl, hp], by simp [hl], by simp [hl], fun _ _ _ => rfl, ?_⟩
        intro s1 vi h1 h2
        simp only [hl, Option.some.injEq] at h1
        subst h1
        rw [hp] at h2
        simp at h2
      | some vi =>
        refine ⟨vi, by simp [hl, hp], by simp [hl], by simp [hl], ?_, ?_⟩
        · intro s1 h1 h2
          simp only [hl, Option.some.injEq] at h1
          subst h1
          rw [hp] at h2
          simp at h2
        · intro s1 vi1 h1 h2
          simp only [hl, Option.some.injEq] at h1
          subst h1
          rw [hp] at h2
          simpa using h2

theorem Start_init (src dst : String) (maxIdle : Nat) (n : Int)
    (qao : Except String GetQueueAttributesOutput) (w1 : World)
    (h : Start (World.init src dst maxIdle) n qao = .ok w1) :
    ∃ v w0, countRemainingMessages (World.init src dst maxIdle) qao = .ok (v, w0)
      ∧ w1.p.remaining = v ∧ w1.progress = 0
      ∧ (v ≤ 0 ∨ (w1.p.ctx = some (Context.mk false)
          ∧ w1.workers = List.replicate n.toNat Worker.top ∧ 0 ≤ n)) := by
  cases qao with
  | error e => simp [Start, countRemainingMessages] at h
  | ok qao =>
    obtain ⟨v, hv, _⟩ := countRemainingMessages_ok (World.init src dst maxIdle) qao
    refine ⟨v, _, hv, ?_⟩
    unfold Start at h
    rw [hv] at h
    simp only [] at h
    by_cases hle : v ≤ 0
    · simp only [hle, if_true, Result.ok.injEq] at h
      subst h
      exact ⟨rfl, rfl, Or.inl hle⟩
    · simp only [hle, if_false] at h
      by_cases hn : (World.init src dst maxIdle).p.wg + n < 0
      · simp [hn] at h
      · simp only [hn, if_false, Result.ok.injEq] at h
        subst h
        refine ⟨rfl, rfl, Or.inr ⟨rfl, by simp [World.init], ?_⟩⟩
        simp only [World.init, zero_add, not_lt] at hn
        exact hn

theorem run_counters (w : World) (es : List Event) (w1 : World) (h : run w es = some w1) :
    ∃ k j : Nat, w1.p.remaining = w.p.remaining - (k : Int)
      ∧ w1.progress = w.progress + (j : Int)
      ∧ w1.p.ctx.isSome = w.p.ctx.isSome
      ∧ w1.workers.length = w.workers.length
      ∧ w1.p.remaining + w1.progress + pendingTotal w1.workers =
          w.p.remaining + w.progress + pendingTotal w.workers := by
  induction es generalizing w with
  | nil =>
    simp only [run, Option.some.injEq] at h
    subst h
    exact ⟨0, 0, by simp⟩
  | cons e es ih =>
    unfold run at h
    cases hs : step w e with
    | none => simp [hs] at h
    | some w2 =>
      simp only [hs] at h
      obtain ⟨k1, j1, a1, a2, a3, a4, a5⟩ := step_counters w e w2 hs
      obtain ⟨k2, j2, b1, b2, b3, b4, b5⟩ := ih w2 h
      refine ⟨k1 + k2, j1 + j2, ?_, ?_, ?_, ?_, ?_⟩
      · rw [b1, a1]; push_cast; ring
      · rw [b2, a2]; push_cast; ring
      · rw [b3, a3]
      · rw [b4, a4]
      · rw [b5, a5]

theorem step_Quiet (w : World) (e : Event) (w1 : World) (h : step w e = some w1)
    (hi : e.isInterrupt = false) (ht : e.isTimeout = false) (hQ : Quiet w) : Quiet w1 := by
  obtain ⟨k, _, a1, _, _, a4, _⟩ := step_counters w e w1 h
  by_cases hr : w.p.remaining ≤ 0
  · left; rw [a1]; omega
  · rcases hQ with hQ | ⟨hf, hne, hx⟩
    · exact absurd hQ hr
    · right
      refine ⟨?_, ?_, step_no_exit w e w1 h hf (by omega) hx⟩
      · have := step_quiet w e w1 h hi ht
        simp only [fired, this] at hf ⊢
        exact hf
      · intro h0
        apply hne
        rw [h0] at a4
        exact List.length_eq_zero.mp a4.symm

theorem run_Quiet (w : World) (es : List Event) (w1 : World) (h : run w es = some w1)
    (hq : ∀ e ∈ es, e.isInterrupt = false ∧ e.isTimeout = false) (hQ : Quiet w) :
    Quiet w1 := by
  induction es generalizing w with
  | nil =>
    simp only [run, Option.some.injEq] at h
    subst h
    exact hQ
  | cons e es ih =>
    unfold run at h
    cases hs : step w e with
    | none => simp [hs] at h
    | some w2 =>
      simp only [hs] at h
      have he := hq e (List.mem_cons_self _ _)
      exact ih w2 h (fun x hx => hq x (List.mem_cons_of_mem _ hx))
        (step_Quiet w e w2 hs he.1 he.2 hQ)

/-! ## Termination of a run (C7) -/

/-- C7 fails as stated: in a run without any interrupt in which the idle
timer expires, the only worker leaves its loop while `remaining` is 25. -/
theorem idle_run_ends_with_messages_remaining :
    idleRun.all (fun e => !e.isInterrupt) = true
    ∧ (runFromStart "src" "dst" 60000000000 1 sampleAttributes idleRun).map
        (fun w => (w.workers, w.p.remaining, decide (w.p.remaining ≤ 0))) =
      some ([Worker.exited], 25, false) := by
  constructor <;> decide

/-- C7, amended: in every run after `Start(n)` with `n ≥ 1` in which neither
the interrupt listener nor the idle time-out listener cancels the context,
once every worker has left its loop `remaining` is at most 0. -/
theorem quiet_run_ends_drained (src dst : String) (maxIdle : Nat) (n : Int)
    (qao : Except String GetQueueAttributesOutput) (es : List Event) (w : World)
    (hn : 1 ≤ n)
    (h : runFromStart src dst maxIdle n qao es = some w)
    (hq : ∀ e ∈ es, e.isInterrupt = false ∧ e.isTimeout = false)
    (hall : ∀ x ∈ w.workers, x = Worker.exited) :
    w.p.remaining ≤ 0 := by
  unfold runFromStart at h
  cases hS : Start (World.init src dst maxIdle) n qao with
  | ok w0 =>
    rw [hS] at h
    simp only [] at h
    obtain ⟨v, wc, _, hv, _, hcase⟩ := Start_init src dst maxIdle n qao w0 hS
    have hQ0 : Quiet w0 := by
      rcases hcase with hle | ⟨hctx, hws, _⟩
      · left; rw [hv]; exact hle
      · right
        refine ⟨by simp [fired, hctx], ?_, ?_⟩
        · rw [hws]
          intro h0
          have := congrArg List.length h0
          simp at this
          omega
        · rw [hws]
          intro x hx
          rw [List.eq_of_mem_replicate hx]
          simp
    rcases run_Quiet w0 es w h hq hQ0 with hle | ⟨_, hne, hx⟩
    · exact hle
    · exfalso
      obtain ⟨x, hxm⟩ := List.exists_mem_of_ne_nil _ hne
      exact hx x hxm (hall x hxm)
  | blocked a => rw [hS] at h; simp at h
  | panicked => rw [hS] at h; simp at h
  | exited c => rw [hS] at h; simp at h

theorem quiet_run_ends_drained_witness :
    (runFromStart "src" "dst" 60000000000 2 sampleAttributes drainRun).map
        (fun w => (w.workers, decide (w.p.remaining ≤ 0))) =
      some ([Worker.exited, Worker.exited], true) := by
  have h2 : (runFromStart "src" "dst" 60000000000 2 sampleAttributes drainRun).map
      (fun w => w.workers) = some [Worker.exited, Worker.exited] := by decide
  cases h : runFromStart "src" "dst" 60000000000 2 sampleAttributes drainRun with
  | none => rw [h] at h2; simp at h2
  | some w =>
    rw [h] at h2
    simp only [Option.map_some', Option.some.injEq] at h2
    have h3 : w.p.remaining ≤ 0 :=
      quiet_run_ends_drained "src" "dst" 60000000000 2 sampleAttributes drainRun w
        (by decide) h (by decide) (by rw [h2]; decide)
    simp [h2, h3]

/-! ## The stop predicate (C5) -/

/-- C5: `IsDone` returns `true` exactly when `remaining ≤ 0` or the context is
cancelled; whenever it returns, the state it leaves differs from the one it
found only by the lines printed; and it does return in every state in which
the context exists or `remaining ≤ 0`, which are all the states of a run
after `Start`. -/
theorem IsDone_iff_drained_or_fired (w : World) :
    ((∃ w1, IsDone w = .ok (true, w1)) ↔ (w.p.remaining ≤ 0 ∨ fired w = true))
    ∧ (∀ b w1, IsDone w = .ok (b, w1) →
        w1.p = w.p ∧ w1.progress = w.progress ∧ w1.calls = w.calls ∧ w1.workers = w.workers
        ∧ w1.termListener = w.termListener ∧ w1.timerListener = w.timerListener
        ∧ w1.progressLogger = w.progressLogger ∧ ∃ lines, w1.out = w.out ++ lines)
    ∧ ((w.p.ctx ≠ none ∨ w.p.remaining ≤ 0) →
        ∃ w1, IsDone w = .ok (decide (w.p.remaining ≤ 0 ∨ fired w = true), w1))
    ∧ (∀ src dst maxIdle n qao es,
        runFromStart src dst maxIdle n qao es = some w →
          w.p.ctx ≠ none ∨ w.p.remaining ≤ 0) := by
  refine ⟨⟨?_, ?_⟩, ?_, IsDone_total w, ?_⟩
  · rintro ⟨w1, h⟩
    exact (IsDone_ok w true w1 h).2.mp rfl
  · intro h
    have hc : w.p.ctx ≠ none ∨ w.p.remaining ≤ 0 := by
      rcases h with h | h
      · exact Or.inr h
      · left
        intro hn
        simp [fired, hn] at h
    obtain ⟨w1, h1⟩ := IsDone_total w hc
    have : decide (w.p.remaining ≤ 0 ∨ fired w = true) = true := by simpa using h
    rw [this] at h1
    exact ⟨w1, h1⟩
  · intro b w1 h
    obtain ⟨⟨lines, rfl⟩, _⟩ := IsDone_ok w b w1 h
    exact ⟨rfl, rfl, rfl, rfl, rfl, rfl, rfl, lines, rfl⟩
  · intro src dst maxIdle n qao es h
    unfold runFromStart at h
    cases hS : Start (World.init src dst maxIdle) n qao with
    | ok w0 =>
      rw [hS] at h
      simp only [] at h
      obtain ⟨v, wc, _, hv, _, hcase⟩ := Start_init src dst maxIdle n qao w0 hS
      obtain ⟨k, _, hk, _, hsome, _, _⟩ := run_counters w0 es w h
      rcases hcase with hle | ⟨hctx, _, _⟩
      · right; rw [hk, hv]; omega
      · left
        intro hn
        rw [hn, hctx] at hsome
        simp at hsome
    | blocked a => rw [hS] at h; simp at h
    | panicked => rw [hS] at h; simp at h
    | exited c => rw [hS] at h; simp at h

theorem IsDone_iff_drained_or_fired_witness :
    (∃ w1, IsDone sampleWorld = .ok (false, w1))
    ∧ (∃ w1, IsDone consumedWorld = .ok (true, w1)) := by
  have h1 := (IsDone_iff_drained_or_fired sampleWorld).2.2.1 (by decide)
  have h2 := (IsDone_iff_drained_or_fired consumedWorld).2.2.1 (by decide)
  exact ⟨h1, h2⟩

/-! ## `Start` on an empty queue (C8) -/

/-- C8: when the size read from the answer of `GetQueueAttributes` is at most
0 (a missing attribute, a `nil` value or a value that `ParseInt` rejects reads
as 0), `Start` on a fresh pipe returns having created no context and no idle
timer, registered no listener, launched no worker and not started the
progress logger; `Wait` then returns at once and no goroutine can take a
step. -/
theorem Start_on_empty_queue_starts_nothing (src dst : String) (maxIdle : Nat) (n : Int)
    (qao : GetQueueAttributesOutput) :
    ∃ v w0, countRemainingMessages (World.init src dst maxIdle) (.ok qao) = .ok (v, w0)
      ∧ (qao.Attributes.lookup QueueAttributeNameApproximateNumberOfMessages = none → v = 0)
      ∧ (qao.Attributes.lookup QueueAttributeNameApproximateNumberOfMessages = some none →
          v = 0)
      ∧ (∀ s, qao.Attributes.lookup QueueAttributeNameApproximateNumberOfMessages =
          some (some s) → ParseInt s = none → v = 0)
      ∧ (v ≤ 0 →
          ∃ w1, Start (World.init src dst maxIdle) n (.ok qao) = .ok w1
            ∧ w1.p.remaining = v
            ∧ w1.p.ctx = none ∧ w1.p.idleTimer = none
            ∧ w1.termListener = false ∧ w1.timerListener = false
            ∧ w1.workers = [] ∧ w1.p.wg = 0 ∧ w1.progressLogger = false
            ∧ w1.out = ["Queue is empty or unable to read size"]
            ∧ Wait w1 = .ok w1
            ∧ ∀ e, step w1 e = none) := by
  obtain ⟨v, hv, h1, h2, h3, _⟩ := countRemainingMessages_ok (World.init src dst maxIdle) qao
  refine ⟨v, _, hv, h1, h2, h3, ?_⟩
  intro hle
  unfold Start
  rw [hv]
  simp only [hle, if_true]
  refine ⟨_, rfl, rfl, rfl, rfl, rfl, rfl, rfl, rfl, rfl, rfl, rfl, ?_⟩
  intro e
  cases e <;> simp [step, World.init]

theorem Start_on_empty_queue_starts_nothing_witness :
    (∃ w1, Start (World.init "src" "dst" 60000000000) 2 (.ok noSizeAttributes) = .ok w1
      ∧ w1.workers = [] ∧ Wait w1 = .ok w1)
    ∧ (∃ w1, Start (World.init "src" "dst" 60000000000) 2 (.ok badSizeAttributes) = .ok w1
      ∧ w1.workers = [] ∧ Wait w1 = .ok w1) := by
  obtain ⟨v, w0, _, h1, _, _, h4⟩ :=
    Start_on_empty_queue_starts_nothing "src" "dst" 60000000000 2 noSizeAttributes
  obtain ⟨u, u0, _, _, _, k3, k4⟩ :=
    Start_on_empty_queue_starts_nothing "src" "dst" 60000000000 2 badSizeAttributes
  have hv : v = 0 := h1 (by decide)
  have hu : u = 0 := k3 "many" (by decide) (by decide)
  obtain ⟨w1, a, _, _, _, _, _, b, _, _, _, c, _⟩ := h4 (by omega)
  obtain ⟨w2, a2, _, _, _, _, _, b2, _, _, _, c2, _⟩ := k4 (by omega)
  exact ⟨⟨w1, a, b, c⟩, ⟨w2, a2, b2, c2⟩⟩

/-! ## The idle timer (C9) -/

/-- C9 fails on the code: once the listener goroutine of `Start` has received
the expiry notification (the state `consumedWorld`, which a run reaches with
the worker inside its loop), `ResetTimer` waits for ever on the empty channel,
and the worker that receives a batch in that state never leaves `ResetTimer`
and issues no further call. -/
theorem ResetTimer_blocks_after_expiry_consumed :
    runFromStart "src" "dst" 60000000000 1 sampleAttributes [.check 0, .expire, .timeout] =
      some consumedWorld
    ∧ ResetTimer consumedWorld = .blocked consumedWorld
    ∧ (step consumedWorld (.round 0 (.ok sampleBatch) (.ok sampleSendOutput) (.ok ()))).map
        (fun w => (w.workers, w.p.idleTimer, deleteRequests (newCalls consumedWorld w))) =
      some ([Worker.stuck], some { armed := none, C := false }, []) := by
  refine ⟨?_, ?_, ?_⟩ <;> decide

/-- The three states of the idle timer: `ResetTimer` re-arms a running timer
and a timer whose expiry notification is still in the channel, and waits for
ever when the notification has been received by another goroutine. -/
theorem ResetTimer_by_timer_state (w : World) (d : Nat) :
    (w.p.idleTimer = some { armed := some d, C := false } →
      ResetTimer w = .ok { w with p := { w.p with
        idleTimer := some { armed := some w.p.MaxIdle, C := false } } })
    ∧ (w.p.idleTimer = some { armed := none, C := true } →
      ResetTimer w = .ok { w with p := { w.p with
        idleTimer := some { armed := some w.p.MaxIdle, C := false } } })
    ∧ (w.p.idleTimer = some { armed := none, C := false } →
      ResetTimer w = .blocked w) := by
  refine ⟨?_, ?_, ?_⟩ <;> intro h <;>
    simp [ResetTimer, h, Timer.Stop, Timer.Reset, Timer.recv]
  rw [← h]

/-- A worker stuck in `ResetTimer` stays stuck in every continuation. -/
theorem stuck_worker_stays_stuck (w : World) (es : List Event) (w1 : World) (i : Nat)
    (h : run w es = some w1) (hs : w.workers[i]? = some Worker.stuck) :
    w1.workers[i]? = some Worker.stuck := by
  induction es generalizing w with
  | nil =>
    simp only [run, Option.some.injEq] at h
    subst h
    exact hs
  | cons e es ih =>
    unfold run at h
    cases hst : step w e with
    | none => simp [hst] at h
    | some w2 =>
      simp only [hst] at h
      apply ih w2 h
      cases e with
      | interrupt =>
        unfold step at hst
        by_cases ht : w.termListener = true
        · simp only [ht, if_true, Option.some.injEq] at hst
          subst hst
          exact hs
        · simp [ht] at hst
      | expire =>
        unfold step at hst
        cases hi : w.p.idleTimer with
        | none => simp [hi] at hst
        | some t =>
          simp only [hi] at hst
          cases hf : t.fire with
          | none => simp [hf] at hst
          | some t1 =>
            simp only [hf, Option.some.injEq] at hst
            subst hst
            exact hs
      | timeout =>
        unfold step at hst
        by_cases ht : w.timerListener = true
        · simp only [ht, if_true] at hst
          cases hi : w.p.idleTimer with
          | none => simp [hi] at hst
          | some t =>
            simp only [hi] at hst
            cases hf : t.recv with
            | none => simp [hf] at hst
            | some t1 =>
              simp only [hf, Option.some.injEq] at hst
              subst hst
              exact hs
        · simp [ht] at hst
      | check j =>
        obtain ⟨hj, b, lines, _, rfl⟩ := step_check w j w2 hst
        have hne : j ≠ i := by
          intro hji
          rw [hji, hs] at hj
          simp at hj
        cases b <;> simp [List.getElem?_set, hne, hs]
      | round j rmo smo dmo =>
        obtain ⟨hj, k, t, cs, o, x, _, rfl⟩ := step_round w j rmo smo dmo w2 hst
        have hne : j ≠ i := by
          intro hji
          rw [hji, hs] at hj
          simp at hj
        simp [List.getElem?_set, hne, hs]
      | account j =>
        obtain ⟨v, hj, rfl⟩ := step_account w j w2 hst
        have hne : j ≠ i := by
          intro hji
          rw [hji, hs] at hj
          simp at hj
        simp [List.getElem?_set, hne, hs]

theorem liveWorkers_set (ws : List Worker) (i : Nat) (a b : Worker)
    (ha : ws[i]? = some a) (hne : a ≠ Worker.exited) :
    liveWorkers (ws.set i b) + (if b = Worker.exited then 1 else 0) = liveWorkers ws := by
  induction ws generalizing i with
  | nil => simp at ha
  | cons x xs ih =>
    cases i with
    | zero =>
      simp only [List.getElem?_cons_zero, Option.some.injEq] at ha
      subst ha
      by_cases hb : b = Worker.exited
      · simp [liveWorkers, List.filter, hb, hne]
      · simp [liveWorkers, List.filter, hb, hne]
    | succ j =>
      simp only [List.getElem?_cons_succ] at ha
      have := ih j ha
      by_cases hx : x = Worker.exited
      · simp only [liveWorkers, List.set_cons_succ, List.filter, hx, ne_eq, not_true_eq_false,
          decide_False] at this ⊢
        exact this
      · simp only [liveWorkers, List.set_cons_succ, List.filter, hx, ne_eq, not_false_eq_true,
          decide_True, List.length_cons] at this ⊢
        omega

theorem step_wg (w : World) (e : Event) (w1 : World) (h : step w e = some w1)
    (hw : w.p.wg = (liveWorkers w.workers : Int)) :
    w1.p.wg = (liveWorkers w1.workers : Int) := by
  cases e with
  | interrupt =>
    unfold step at h
    by_cases ht : w.termListener = true
    · simp only [ht, if_true, Option.some.injEq] at h
      subst h
      exact hw
    · simp [ht] at h
  | expire =>
    unfold step at h
    cases hi : w.p.idleTimer with
    | none => simp [hi] at h
    | some t =>
      simp only [hi] at h
      cases hf : t.fire with
      | none => simp [hf] at h
      | some t1 =>
        simp only [hf, Option.some.injEq] at h
        subst h
        exact hw
  | timeout =>
    unfold step at h
    by_cases ht : w.timerListener = true
    · simp only [ht, if_true] at h
      cases hi : w.p.idleTimer with
      | none => simp [hi] at h
      | some t =>
        simp only [hi] at h
        cases hf : t.recv with
        | none => simp [hf] at h
        | some t1 =>
          simp only [hf, Option.some.injEq] at h
          subst h
          exact hw
    · simp [ht] at h
  | check i =>
    obtain ⟨hi, b, lines, _, rfl⟩ := step_check w i w1 h
    cases b with
    | true =>
      have := liveWorkers_set w.workers i Worker.top Worker.exited hi (by simp)
      simp only [if_true] at this ⊢
      rw [hw, ← this]
      push_cast
      ring
    | false =>
      have := liveWorkers_set w.workers i Worker.top Worker.body hi (by simp)
      simp only [reduceCtorEq, if_false, add_zero, Bool.false_eq_true] at this ⊢
      rw [this]
      exact hw
  | round i rmo smo dmo =>
    obtain ⟨hi, k, t, cs, o, x, hx, rfl⟩ := step_round w i rmo smo dmo w1 h
    have := liveWorkers_set w.workers i Worker.body x hi (by simp)
    have hxe : x ≠ Worker.exited := by
      rcases hx with ⟨rfl, _⟩ | ⟨rfl, _⟩ | rfl <;> simp
    simp only [hxe, if_false, add_zero] at this
    simp only [this]
    exact hw
  | account i =>
    obtain ⟨v, hi, rfl⟩ := step_account w i w1 h
    have := liveWorkers_set w.workers i (Worker.accounting v) Worker.top hi (by simp)
    simp only [reduceCtorEq, if_false, add_zero] at this
    simp only [this]
    exact hw

theorem run_wg (w : World) (es : List Event) (w1 : World) (h : run w es = some w1)
    (hw : w.p.wg = (liveWorkers w.workers : Int)) :
    w1.p.wg = (liveWorkers w1.workers : Int) := by
  induction es generalizing w with
  | nil =>
    simp only [run, Option.some.injEq] at h
    subst h
    exact hw
  | cons e es ih =>
    unfold run at h
    cases hs : step w e with
    | none => simp [hs] at h
    | some w2 =>
      simp only [hs] at h
      exact ih w2 h (step_wg w e w2 hs hw)

/-- While a worker is stuck in `ResetTimer`, `Wait` does not return: in every
continuation of a state whose wait group counts the live workers, the worker
is still stuck and `Wait` blocks. -/
theorem Wait_blocks_while_stuck (w : World) (es : List Event) (w1 : World) (i : Nat)
    (h : run w es = some w1) (hw : w.p.wg = (liveWorkers w.workers : Int))
    (hs : w.workers[i]? = some Worker.stuck) :
    w1.workers[i]? = some Worker.stuck ∧ Wait w1 = .blocked w1 := by
  have h1 := stuck_worker_stays_stuck w es w1 i h hs
  refine ⟨h1, ?_⟩
  have h2 := run_wg w es w1 h hw
  have h3 : 0 < liveWorkers w1.workers := by
    unfold liveWorkers
    apply List.length_pos_of_mem (a := Worker.stuck)
    simp only [ne_eq, List.mem_filter, reduceCtorEq, not_false_eq_true, decide_True, and_true]
    exact List.getElem?_mem h1
  have h4 : ¬ w1.p.wg = 0 := by omega
  simp [Wait, h4]

/-! ## The counters (C10) -/

theorem runLoopBody_without_accounting (w : World) (rmo : Except String ReceiveMessageOutput)
    (smo : Except String SendMessageBatchOutput) (dmo : Except String Unit) (w1 : World)
    (hend : endsWithoutAccounting rmo smo dmo) (h : runLoopBody w rmo smo dmo = .ok w1) :
    w1.p.remaining = w.p.remaining ∧ w1.progress = w.progress := by
  cases rmo with
  | error err =>
    simp only [runLoopBody, Result.ok.injEq] at h
    subst h
    exact ⟨rfl, rfl⟩
  | ok r =>
    by_cases hne : r.Messages = []
    · simp only [runLoopBody, hne, List.length_nil, if_true, Result.ok.injEq] at h
      subst h
      exact ⟨rfl, rfl⟩
    · cases hT : canReset w with
      | false =>
        rcases runLoopBody_stuck w r smo dmo hne hT with hR | ⟨t1, hR⟩ <;>
          rw [hR] at h <;> simp at h
      | true =>
        obtain ⟨t1, _, hR⟩ := runLoopBody_nonempty w r smo dmo hne hT
        rw [hR] at h
        by_cases he : confirmedEntries r.Messages smo = []
        · rw [if_pos he] at h
          simp only [Result.ok.injEq] at h
          subst h
          exact ⟨rfl, rfl⟩
        · rw [if_neg he] at h
          rcases hend with h1 | h1 | ⟨err, h1⟩
          · exact absurd h1 hne
          · exact absurd h1 he
          · subst h1
            simp only [Result.ok.injEq] at h
            subst h
            exact ⟨rfl, rfl⟩

theorem pendingTotal_replicate_top (m : Nat) :
    pendingTotal (List.replicate m Worker.top) = 0 := by
  induction m with
  | zero => simp [pendingTotal]
  | succ k ih =>
    simp only [pendingTotal, List.replicate_succ, List.map_cons, List.sum_cons] at ih ⊢
    rw [ih]
    simp [Worker.pending]

theorem pendingTotal_of_none_accounting (ws : List Worker)
    (h : ∀ k, Worker.accounting k ∉ ws) : pendingTotal ws = 0 := by
  induction ws with
  | nil => simp [pendingTotal]
  | cons x xs ih =>
    have hx : x.pending = 0 := by
      cases x with
      | accounting k => exact absurd (List.mem_cons_self _ _) (h k)
      | _ => rfl
    have := ih (fun k hk => h k (List.mem_cons_of_mem _ hk))
    simp only [pendingTotal, List.map_cons, List.sum_cons] at this ⊢
    rw [this, hx]
    simp

theorem Start_init_pending (src dst : String) (maxIdle : Nat) (n : Int)
    (qao : Except String GetQueueAttributesOutput) (w1 : World)
    (h : Start (World.init src dst maxIdle) n qao = .ok w1) :
    pendingTotal w1.workers = 0 := by
  cases qao with
  | error e => simp [Start, countRemainingMessages] at h
  | ok qao =>
    obtain ⟨v, hv, _⟩ := countRemainingMessages_ok (World.init src dst maxIdle) qao
    unfold Start at h
    rw [hv] at h
    simp only [] at h
    by_cases hle : v ≤ 0
    · simp only [hle, if_true, Result.ok.injEq] at h
      subst h
      simp [World.init, pendingTotal]
    · simp only [hle, if_false] at h
      by_cases hn : (World.init src dst maxIdle).p.wg + n < 0
      · simp [hn] at h
      · simp only [hn, if_false, Result.ok.injEq] at h
        subst h
        simp only [World.init, List.nil_append]
        exact pendingTotal_replicate_top _

/-- The two steps `round` and `account` of a worker together do what one run
of the loop body does. -/
theorem round_then_account (w : World) (i : Nat) (rmo : Except String ReceiveMessageOutput)
    (smo : Except String SendMessageBatchOutput) (dmo : Except String Unit) (w1 : World)
    (hi : w.workers[i]? = some Worker.body) (h : runLoopBody w rmo smo dmo = .ok w1) :
    step w (.round i rmo smo dmo) = some { w1 with workers := w.workers.set i Worker.top }
    ∨ ∃ w2, step w (.round i rmo smo dmo) = some w2
        ∧ step w2 (.account i) = some { w1 with workers := w.workers.set i Worker.top } := by
  rw [runLoopBody_eq_calls] at h
  cases hB : runLoopCalls w rmo smo dmo with
  | ok r =>
    obtain ⟨r, o⟩ := r
    obtain ⟨t, cs, out, rfl⟩ := runLoopCalls_frame w rmo smo dmo r o (Or.inl hB)
    rw [hB] at h
    cases o with
    | none =>
      simp only [Result.ok.injEq] at h
      subst h
      left
      simp only [step, hi, hB]
    | some v =>
      simp only [Result.ok.injEq] at h
      subst h
      right
      have hs : step w (.round i rmo smo dmo) =
          some { addRemaining
                   { w with p := { w.p with idleTimer := t }, calls := cs, out := out } (v : Int) with
                 workers := w.workers.set i (Worker.accounting v) } := by
        simp only [step, hi, hB]
      refine ⟨_, hs, ?_⟩
      have hlt : i < w.workers.length := by
        rcases List.getElem?_eq_some_iff.mp hi with ⟨hlt, _⟩
        exact hlt
      simp only [step, addRemaining, List.getElem?_set_self hlt, progressAdd, DecrRemaining,
        List.set_set]
  | blocked r => rw [hB] at h; simp at h
  | panicked => rw [hB] at h; simp at h
  | exited c => rw [hB] at h; simp at h

/-- C10 fails as stated: `DecrRemaining` is two separate atomic additions, so
a run reaches a state between them.  After `Start(2)` on a source of 25
messages, once the first worker has deleted 7 messages and lowered
`p.remaining` to 18, `progress` is still 0 and the sum is 18, not 25, while
the second worker is free to run. -/
theorem counters_sum_breaks_inside_DecrRemaining :
    (countRemainingMessages (World.init "src" "dst" 60000000000)
        sampleAttributes).toOption.map Prod.fst = some 25
    ∧ (runFromStart "src" "dst" 60000000000 2 sampleAttributes midAccountingRun).map
        (fun w => (w.p.remaining, w.progress, w.workers,
          decide (w.p.remaining + w.progress = 25))) =
      some (18, 0, [Worker.accounting 7, Worker.top], false)
    ∧ (runFromStart "src" "dst" 60000000000 2 sampleAttributes
        (midAccountingRun ++ [.check 1])).map (fun w => w.workers) =
      some [Worker.accounting 7, Worker.body] := by
  refine ⟨?_, ?_, ?_⟩ <;> decide

/-- C10, amended: `DecrRemaining(v)` lowers `remaining` by `v` and raises
`progress` by `v`, by two separate atomic additions; `IsDone`, `ResetTimer`
and a loop body that ends by a receive error, an empty batch, an empty delete
request or a delete error change neither; so in every state `w` of a run after
`Start` on a fresh process (`progress = 0`), `remaining + progress` plus the
amounts of the `DecrRemaining` calls that are between their two additions is
the size read by `Start`, hence `remaining + progress` is that size whenever
no `DecrRemaining` call is in progress; `progress` is not negative, and no
step lowers `progress` or changes the sum with the amounts in progress. -/
theorem counters_conserved_up_to_pending (src dst : String) (maxIdle : Nat) (n : Int)
    (qao : Except String GetQueueAttributesOutput) (es : List Event) (w : World)
    (h : runFromStart src dst maxIdle n qao es = some w) :
    (∀ (w0 : World) (v : Int),
        (DecrRemaining w0 v).p.remaining = w0.p.remaining - v
        ∧ (DecrRemaining w0 v).progress = w0.progress + v
        ∧ DecrRemaining w0 v = progressAdd (addRemaining w0 v) v)
    ∧ (∀ w0 b w1, IsDone w0 = .ok (b, w1) →
        w1.p.remaining = w0.p.remaining ∧ w1.progress = w0.progress)
    ∧ (∀ w0 w1, ResetTimer w0 = .ok w1 ∨ ResetTimer w0 = .blocked w1 →
        w1.p.remaining = w0.p.remaining ∧ w1.progress = w0.progress)
    ∧ (∀ w0 rmo smo dmo w1, endsWithoutAccounting rmo smo dmo →
        runLoopBody w0 rmo smo dmo = .ok w1 →
        w1.p.remaining = w0.p.remaining ∧ w1.progress = w0.progress)
    ∧ (∃ v w0, countRemainingMessages (World.init src dst maxIdle) qao = .ok (v, w0)
        ∧ w.p.remaining + w.progress + pendingTotal w.workers = v
        ∧ ((∀ k, Worker.accounting k ∉ w.workers) → w.p.remaining + w.progress = v))
    ∧ 0 ≤ w.progress
    ∧ (∀ e w1, step w e = some w1 →
        w.progress ≤ w1.progress
        ∧ w1.p.remaining ≤ w.p.remaining
        ∧ w1.p.remaining + w1.progress + pendingTotal w1.workers =
            w.p.remaining + w.progress + pendingTotal w.workers) := by
  refine ⟨?_, ?_, ?_, ?_, ?_⟩
  · intro w0 v
    refine ⟨?_, ?_, rfl⟩
    · simp only [DecrRemaining, progressAdd, neg_mul, one_mul]
      rfl
    · simp only [DecrRemaining, progressAdd]
  · intro w0 b w1 h0
    obtain ⟨⟨lines, rfl⟩, _⟩ := IsDone_ok w0 b w1 h0
    exact ⟨rfl, rfl⟩
  · intro w0 w1 h0
    obtain ⟨t1, rfl⟩ := ResetTimer_frame w0 w1 h0
    exact ⟨rfl, rfl⟩
  · intro w0 rmo smo dmo w1 hend h0
    exact runLoopBody_without_accounting w0 rmo smo dmo w1 hend h0
  · unfold runFromStart at h
    cases hS : Start (World.init src dst maxIdle) n qao with
    | ok ws =>
      rw [hS] at h
      simp only [] at h
      obtain ⟨v, wc, hc, hv, hp, _⟩ := Start_init src dst maxIdle n qao ws hS
      have hp0 := Start_init_pending src dst maxIdle n qao ws hS
      obtain ⟨k, j, _, hk2, _, _, hk5⟩ := run_counters ws es w h
      have hsum : w.p.remaining + w.progress + pendingTotal w.workers = v := by
        rw [hk5, hv, hp, hp0]
        ring
      refine ⟨⟨v, wc, hc, hsum, ?_⟩, by rw [hk2, hp]; omega, ?_⟩
      · intro hnone
        rw [pendingTotal_of_none_accounting w.workers hnone] at hsum
        simpa using hsum
      · intro e w1 hst
        obtain ⟨k1, j1, hj1, hj2, _, _, hj5⟩ := step_counters w e w1 hst
        exact ⟨by rw [hj2]; omega, by rw [hj1]; omega, hj5⟩
    | blocked a => rw [hS] at h; simp at h
    | panicked => rw [hS] at h; simp at h
    | exited c => rw [hS] at h; simp at h

theorem counters_conserved_up_to_pending_witness :
    (runFromStart "src" "dst" 60000000000 2 sampleAttributes drainRun).map
        (fun w => (w.progress, w.workers, decide (w.p.remaining + w.progress = 25))) =
      some (25, [Worker.exited, Worker.exited], true) := by
  have h2 : (runFromStart "src" "dst" 60000000000 2 sampleAttributes drainRun).map
      (fun w => (w.progress, w.workers)) = some (25, [Worker.exited, Worker.exited]) := by
    decide
  have hc : (countRemainingMessages (World.init "src" "dst" 60000000000)
      sampleAttributes).toOption.map Prod.fst = some 25 := by decide
  cases h : runFromStart "src" "dst" 60000000000 2 sampleAttributes drainRun with
  | none => rw [h] at h2; simp at h2
  | some w =>
    rw [h] at h2
    simp only [Option.map_some', Option.some.injEq, Prod.mk.injEq] at h2
    obtain ⟨_, _, _, _, ⟨v, w0, hv, _, hsum⟩, _, _⟩ :=
      counters_conserved_up_to_pending "src" "dst" 60000000000 2 sampleAttributes
        drainRun w h
    rw [hv] at hc
    simp only [Result.toOption, Option.map_some', Option.some.injEq] at hc
    have hs := hsum (by rw [h2.2]; intro k; simp)
    rw [hc, h2.1] at hs
    simp only [Option.map_some', h2.1, h2.2, hs, decide_True]

end Sqspipe
